import Mathlib

/-!
Verification of the circuit wire-routing core (obstacle map construction,
A*-style grid search, Manhattan elbow routing, line-of-sight testing and
path simplification) of the OpenCV-algorithm repository.

The Python source is shallowly embedded:
* an obstacle map (`Grid`) stores, for every pixel, whether its byte value
  is 255 (obstacle) or 0 (free) — the pipeline only ever produces binary
  0/255 maps, so a `Bool` cell models the stored byte faithfully;
* pixel coordinates are `Int × Int` (Python ints; queries may be negative
  or past the edge);
* the floating-point move costs 1.0 and 1.4 of the search are embedded
  scaled by 5 as the naturals 5 and 7, which is order-isomorphic to the
  exact values of the source expressions; the unscaled costs are also
  defined as rationals for the statements about them;
* loops are embedded as fuelled or well-founded recursions; every fuelled
  loop comes with a sufficiency lemma showing the fuel never runs out on
  the states the program reaches.
-/

/-- A pixel coordinate `(x, y)`, as used by `pathfinding.py`. -/
abbrev Pt : Type := Int × Int

/-- Obstacle map: `PathFinder.__init__` stores the map and caches
`height, width = obstacle_map.shape`.  `cell x y = true` models
`obstacle_map[y, x] == 255`, `false` models value `0`. -/
structure Grid where
  width : Nat
  height : Nat
  cell : Int → Int → Bool

/-- `0 <= x < self.width and 0 <= y < self.height`. -/
def Grid.inB (g : Grid) (x y : Int) : Bool :=
  decide (0 ≤ x) && decide (x < (g.width : Int)) && decide (0 ≤ y) && decide (y < (g.height : Int))

/-- The blocking test used by `manhattan_routing` and `_can_connect_directly`:
`x < 0 or x >= self.width or y < 0 or y >= self.height or self.obstacle_map[y, x] == 255`. -/
def Grid.blockedAt (g : Grid) (x y : Int) : Bool :=
  !g.inB x y || g.cell x y

/-- The neighbour test used by `a_star.get_neighbors`:
`0 <= nx < self.width and 0 <= ny < self.height and self.obstacle_map[ny, nx] == 0`. -/
def Grid.freeAt (g : Grid) (x y : Int) : Bool :=
  g.inB x y && !g.cell x y

theorem Grid.freeAt_eq_not_blockedAt (g : Grid) (x y : Int) :
    g.freeAt x y = !g.blockedAt x y := by
  simp [Grid.freeAt, Grid.blockedAt]

/-! ### Bresenham line walk (`_can_connect_directly`, lines 216–261)

The `while True` loop is embedded with fuel; `bresFuel` is shown sufficient
below (`canConnectAux_eq_all` is only stated on states the walk reaches).
`bresLineAux` is the same walk recording the sampled cells and ignoring the
obstacle map. -/

/-- One fuelled step of the Bresenham walk of `_can_connect_directly`,
checking `self.obstacle_map` along the way.  Parameters `x1 y1` are the
target, `dx dy` the absolute deltas, `xs ys` the steps. -/
def canConnectAux (g : Grid) (x1 y1 dx dy xs ys : Int) :
    Nat → Int → Int → Int → Bool
  | 0, _, _, _ => false
  | fuel + 1, x, y, err =>
    if g.blockedAt x y then false
    else if x = x1 ∧ y = y1 then true
    else
      let e2 := 2 * err
      let err1 := if e2 > -dy then err - dy else err
      let x2 := if e2 > -dy then x + xs else x
      let err2 := if e2 < dx then err1 + dx else err1
      let y2 := if e2 < dx then y + ys else y
      canConnectAux g x1 y1 dx dy xs ys fuel x2 y2 err2

/-- The same walk, recording every sampled cell and ignoring the map:
the rasterised line from the walk's current cell to `(x1, y1)`. -/
def bresLineAux (x1 y1 dx dy xs ys : Int) :
    Nat → Int → Int → Int → List Pt
  | 0, _, _, _ => []
  | fuel + 1, x, y, err =>
    if x = x1 ∧ y = y1 then [(x, y)]
    else
      let e2 := 2 * err
      let err1 := if e2 > -dy then err - dy else err
      let x2 := if e2 > -dy then x + xs else x
      let err2 := if e2 < dx then err1 + dx else err1
      let y2 := if e2 < dx then y + ys else y
      (x, y) :: bresLineAux x1 y1 dx dy xs ys fuel x2 y2 err2

/-- Fuel sufficient for the Bresenham walk from `a` to `b`. -/
def bresFuel (a b : Pt) : Nat :=
  (b.1 - a.1).natAbs + (b.2 - a.2).natAbs + 1

/-- `PathFinder._can_connect_directly(start, end)`. -/
def canConnect (g : Grid) (a b : Pt) : Bool :=
  let dx : Int := (b.1 - a.1).natAbs
  let dy : Int := (b.2 - a.2).natAbs
  let xs : Int := if a.1 < b.1 then 1 else -1
  let ys : Int := if a.2 < b.2 then 1 else -1
  canConnectAux g b.1 b.2 dx dy xs ys (bresFuel a b) a.1 a.2 (dx - dy)

/-- The cells sampled by `_can_connect_directly` on its way from `a` to `b`
(both endpoints included): the rasterised line. -/
def bresLine (a b : Pt) : List Pt :=
  let dx : Int := (b.1 - a.1).natAbs
  let dy : Int := (b.2 - a.2).natAbs
  let xs : Int := if a.1 < b.1 then 1 else -1
  let ys : Int := if a.2 < b.2 then 1 else -1
  bresLineAux b.1 b.2 dx dy xs ys (bresFuel a b) a.1 a.2 (dx - dy)

/-! ### Manhattan elbow routing (`manhattan_routing`, lines 91–174) -/

/-- The inclusive integer range walked by `range(a, b + direction, direction)`
with `direction = 1 if b > a else -1` (Python, `pathfinding.py` lines 110–111
etc.). -/
def rangeIncl (a b : Int) : List Int :=
  if a ≤ b then (List.range (b - a + 1).toNat).map (fun k : Nat => a + (k : Int))
  else (List.range (a - b + 1).toNat).map (fun k : Nat => a - (k : Int))

/-- `route_horizontal_first(start_pt, end_pt)` (lines 103–130): both legs are
validated cell by cell with the blocking test; the whole candidate is `none`
as soon as one traversed cell is blocked.  When `x1 == x2` the start cell is
appended without any check. -/
def routeHorizontalFirst (g : Grid) (s e : Pt) : Option (List Pt) :=
  let leg1 : Option (List Pt) :=
    if s.1 ≠ e.1 then
      let cells := (rangeIncl s.1 e.1).map (fun x => ((x, s.2) : Pt))
      if cells.all (fun p => !g.blockedAt p.1 p.2) then some cells else none
    else some [(s.1, s.2)]
  let leg2 : Option (List Pt) :=
    if s.2 ≠ e.2 then
      let d : Int := if e.2 > s.2 then 1 else -1
      let cells := (rangeIncl (s.2 + d) e.2).map (fun y => ((e.1, y) : Pt))
      if cells.all (fun p => !g.blockedAt p.1 p.2) then some cells else none
    else some []
  match leg1, leg2 with
  | some l1, some l2 => some (l1 ++ l2)
  | _, _ => none

/-- `route_vertical_first(start_pt, end_pt)` (lines 132–159). -/
def routeVerticalFirst (g : Grid) (s e : Pt) : Option (List Pt) :=
  let leg1 : Option (List Pt) :=
    if s.2 ≠ e.2 then
      let cells := (rangeIncl s.2 e.2).map (fun y => ((s.1, y) : Pt))
      if cells.all (fun p => !g.blockedAt p.1 p.2) then some cells else none
    else some [(s.1, s.2)]
  let leg2 : Option (List Pt) :=
    if s.1 ≠ e.1 then
      let d : Int := if e.1 > s.1 then 1 else -1
      let cells := (rangeIncl (s.1 + d) e.1).map (fun x => ((x, e.2) : Pt))
      if cells.all (fun p => !g.blockedAt p.1 p.2) then some cells else none
    else some []
  match leg1, leg2 with
  | some l1, some l2 => some (l1 ++ l2)
  | _, _ => none

/-! ### The A*-style search (`a_star`, lines 22–89)

Costs are scaled by 5 (`1.0 ↦ 5`, `1.4 ↦ 7`) to stay in `Nat`; this is
order-isomorphic to the exact values of the source's float expressions.
The `heapq` frontier is embedded as a list popped at its minimum under the
lexicographic order Python uses on `(f_score, (x, y))` tuples; among equal
tuples `heapq`'s choice is value-irrelevant, so removing the first
occurrence of the minimal value is faithful at the value level. -/

/-- `heuristic(a, b)` (lines 33–35), Manhattan distance, scaled by 5. -/
def heuristicS (a b : Pt) : Nat :=
  5 * ((a.1 - b.1).natAbs + (a.2 - b.2).natAbs)

/-- `move_cost = 1.4 if dx + dy == 2 else 1.0` (line 79), scaled by 5,
where `dx`/`dy` are the absolute coordinate deltas of the step. -/
def moveCostS (cur n : Pt) : Nat :=
  let dx := (n.1 - cur.1).natAbs
  let dy := (n.2 - cur.2).natAbs
  if dx + dy = 2 then 7 else 5

/-- The unscaled move cost of line 79 as an exact rational:
`1.4` diagonal, `1.0` straight. -/
def moveCostQ (cur n : Pt) : ℚ :=
  let dx := (n.1 - cur.1).natAbs
  let dy := (n.2 - cur.2).natAbs
  if dx + dy = 2 then 7 / 5 else 1

/-- The eight direction offsets of `get_neighbors` (line 42). -/
def directions : List (Int × Int) :=
  [(-1, -1), (-1, 0), (-1, 1), (0, -1), (0, 1), (1, -1), (1, 0), (1, 1)]

/-- `get_neighbors(pos)` (lines 37–53): the 8-connected in-bounds free cells. -/
def neighbors (g : Grid) (p : Pt) : List Pt :=
  directions.filterMap (fun d =>
    let n : Pt := (p.1 + d.1, p.2 + d.2)
    if g.freeAt n.1 n.2 then some n else none)

/-- A frontier entry `(f_score, (x, y))` as pushed by line 87 (scaled). -/
abbrev Entry : Type := Nat × Pt

/-- Python's lexicographic `<` on `(f_score, (x, y))` tuples, which is the
order `heapq` uses on the frontier entries. -/
def entryLt (a b : Entry) : Bool :=
  decide (a.1 < b.1) ||
    (decide (a.1 = b.1) &&
      (decide (a.2.1 < b.2.1) ||
        (decide (a.2.1 = b.2.1) && decide (a.2.2 < b.2.2))))

/-- The minimum entry of a nonempty frontier under `entryLt`. -/
def minEntry (e : Entry) (l : List Entry) : Entry :=
  l.foldl (fun m a => if entryLt a m then a else m) e

/-- `heapq.heappop(open_set)`: extract the minimum entry; the remainder is
the frontier with one occurrence of that value removed. -/
def popMin (l : List Entry) : Option (Entry × List Entry) :=
  match l with
  | [] => none
  | e :: rest =>
    let m := minEntry e rest
    some (m, (e :: rest).erase m)

/-- The mutable state of the `a_star` loop: the frontier,
`g_score`, `f_score` and `came_from`. -/
structure AState where
  heap : List Entry
  gS : Pt → Option Nat
  fS : Pt → Option Nat
  came : Pt → Option Pt

/-- Lines 75–87: relax one neighbour — on
`neighbor not in g_score or tentative_g_score < g_score[neighbor]`,
record the parent, the scores and push `(f_score[neighbor], neighbor)`. -/
def relaxOne (goal cur : Pt) (st : AState) (n : Pt) : AState :=
  let tentative := (st.gS cur).getD 0 + moveCostS cur n
  let upd : AState :=
    { heap := (tentative + heuristicS n goal, n) :: st.heap,
      gS := fun p => if p = n then some tentative else st.gS p,
      fS := fun p => if p = n then some (tentative + heuristicS n goal) else st.fS p,
      came := fun p => if p = n then some cur else st.came p }
  match st.gS n with
  | some gn => if tentative < gn then upd else st
  | none => upd

/-- The `for neighbor in get_neighbors(current)` loop (lines 75–87). -/
def relaxAll (g : Grid) (goal cur : Pt) (st : AState) : AState :=
  (neighbors g cur).foldl (relaxOne goal cur) st

/-- The path reconstruction loop of lines 68–71
(`while current in came_from: path.append(current); current = came_from[current]`),
building the reversed list directly; fuelled, the parent chain being
strictly `g_score`-decreasing (see `reconstructAux_spec`). -/
def reconstructAux (came : Pt → Option Pt) : Nat → Pt → List Pt → List Pt
  | 0, _, acc => acc
  | fuel + 1, cur, acc =>
    match came cur with
    | some p => reconstructAux came fuel p (cur :: acc)
    | none => acc

/-- Lines 66–73: reconstruct the path from `goal` back to `start` and
reverse it (the code finally appends `start` itself). -/
def reconstructPath (came : Pt → Option Pt) (start goal : Pt) (fuel : Nat) :
    List Pt :=
  start :: reconstructAux came fuel goal []

/-- The `while open_set` loop of `a_star` (lines 63–87), fuelled;
`aStarFuel` is proven sufficient (`aStarLoop_fuel_enough`). -/
def aStarLoop (g : Grid) (start goal : Pt) : Nat → AState → List Pt
  | 0, _ => []
  | fuel + 1, st =>
    match popMin st.heap with
    | none => []
    | some (e, rest) =>
      let cur := e.2
      if cur = goal then
        reconstructPath st.came start goal ((st.gS cur).getD 0 + 1)
      else
        aStarLoop g start goal fuel (relaxAll g goal cur { st with heap := rest })

/-- All in-bounds cells of the grid (row-major). -/
def allCells (g : Grid) : List Pt :=
  (List.range g.height).flatMap (fun y : Nat =>
    (List.range g.width).map (fun x : Nat => (((x : Int), (y : Int)) : Pt)))

/-- The set of points the search can ever assign a `g_score`:
the in-bounds cells together with the start point. -/
def domainPts (g : Grid) (s : Pt) : List Pt :=
  if s ∈ allCells g then allCells g else s :: allCells g

/-- Fuel sufficient for the whole `a_star` loop (shown in
`aStarLoop_fuel_enough`): a bound on the strictly decreasing measure
`(63*|D|+1) * unset + 9 * sumG + |heap|` of the loop. -/
def aStarFuel (g : Grid) (s : Pt) : Nat :=
  (63 * (domainPts g s).length + 1) * (domainPts g s).length + 2

/-- The initial state of `a_star`: `open_set = [(0, start)]`,
`g_score = {start: 0}`, `f_score = {start: heuristic(start, goal)}` (lines 56–61). -/
def aStarInit (start goal : Pt) : AState :=
  { heap := [(0, start)],
    gS := fun p => if p = start then some 0 else none,
    fS := fun p => if p = start then some (heuristicS start goal) else none,
    came := fun _ => none }

/-- `PathFinder.a_star(start, goal)` (lines 22–89). -/
def aStar (g : Grid) (start goal : Pt) : List Pt :=
  aStarLoop g start goal (aStarFuel g start) (aStarInit start goal)

/-- `PathFinder.manhattan_routing(start, goal)` (lines 91–174): try both
elbow candidates; if both work return the shorter (ties to
horizontal-first), if one works return it, and if neither works fall back
to `self.a_star(start, goal)` (line 174). -/
def manhattanRouting (g : Grid) (s e : Pt) : List Pt :=
  match routeHorizontalFirst g s e, routeVerticalFirst g s e with
  | some r1, some r2 => if r1.length ≤ r2.length then r1 else r2
  | some r1, none => r1
  | none, some r2 => r2
  | none, none => aStar g s e

/-! ### Path simplification (`optimize_path`, lines 176–214) -/

/-- The inner look-ahead loop of `optimize_path` (lines 196–200):
advance `j` while `j < len(path)` and `path[i]` connects directly
to `path[j]`; returns the final `j`. -/
def scanJ (g : Grid) (path : List Pt) (i : Nat) (j : Nat) : Nat :=
  if h : j < path.length then
    if canConnect g (path.getD i ((0 : Int), (0 : Int))) (path.getD j ((0 : Int), (0 : Int))) then
      scanJ g path i (j + 1)
    else j
  else j
termination_by path.length - j

/-- The outer `while i < len(path) - 1` loop of `optimize_path`
(lines 191–208), emitting the waypoints after `path[0]`. -/
def optLoop (g : Grid) (path : List Pt) (i : Nat) : List Pt :=
  if h : i < path.length - 1 then
    let j := scanJ g path i (i + 1)
    if h2 : i < j - 1 then
      path.getD (j - 1) ((0 : Int), (0 : Int)) :: optLoop g path (j - 1)
    else
      path.getD (i + 1) ((0 : Int), (0 : Int)) :: optLoop g path (i + 1)
  else []
termination_by path.length - i
decreasing_by
  · omega
  · omega

/-- `PathFinder.optimize_path(path)` (lines 176–214). -/
def optimizePath (g : Grid) (path : List Pt) : List Pt :=
  if path.length < 3 then path
  else
    let optimized := path.getD 0 ((0 : Int), (0 : Int)) :: optLoop g path 0
    if optimized.getLast? ≠ path.getLast? then
      optimized ++ path.getLast?.toList
    else optimized

/-- Fuelled clone of `scanJ` (the two are proven equal); the clone is
structurally recursive, so the kernel can evaluate it on concrete inputs. -/
def scanJF (g : Grid) (path : List Pt) (i : Nat) : Nat → Nat → Nat
  | 0, j => j
  | fuel + 1, j =>
    if j < path.length then
      if canConnect g (path.getD i ((0 : Int), (0 : Int))) (path.getD j ((0 : Int), (0 : Int))) then
        scanJF g path i fuel (j + 1)
      else j
    else j

/-- Fuelled clone of `optLoop` (the two are proven equal). -/
def optLoopF (g : Grid) (path : List Pt) : Nat → Nat → List Pt
  | 0, _ => []
  | fuel + 1, i =>
    if i < path.length - 1 then
      let j := scanJF g path i path.length (i + 1)
      if i < j - 1 then
        path.getD (j - 1) ((0 : Int), (0 : Int)) :: optLoopF g path fuel (j - 1)
      else
        path.getD (i + 1) ((0 : Int), (0 : Int)) :: optLoopF g path fuel (i + 1)
    else []

/-- Fuelled, kernel-evaluable clone of `optimize_path`
(proven equal in `optimizePathF_eq`). -/
def optimizePathF (g : Grid) (path : List Pt) : List Pt :=
  if path.length < 3 then path
  else
    let optimized := path.getD 0 ((0 : Int), (0 : Int)) :: optLoopF g path path.length 0
    if optimized.getLast? ≠ path.getLast? then
      optimized ++ path.getLast?.toList
    else optimized

/-- `PathFinder.find_best_path(start, goal, prefer_manhattan)` (lines 263–289). -/
def findBestPath (g : Grid) (start goal : Pt) (preferManhattan : Bool) : List Pt :=
  let path :=
    if preferManhattan then
      let p := manhattanRouting g start goal
      if p = [] then aStar g start goal else p
    else aStar g start goal
  if path = [] then path else optimizePath g path

/-! ### Images and the obstacle-map pipeline
(`generic_obstacle_detector.py`, `smart_router.py`)

An image / obstacle map is a list of rows of byte values. -/

/-- A raster image: rows of pixel values. -/
abbrev Image : Type := List (List Nat)

/-- Pixel access with the border convention of `cv2.dilate`'s default
`BORDER_CONSTANT` border (`-∞` for a dilation, i.e. the identity of `max`,
modelled as `0` on byte values). -/
def pixelAt (img : Image) (x y : Int) : Nat :=
  if 0 ≤ y ∧ 0 ≤ x then (img.getD y.toNat []).getD x.toNat 0 else 0

/-- The maximum over the `k × k` window anchored at
`(k / 2, k / 2)` — the effect of `cv2.dilate` with the `MORPH_RECT`
structuring element of `cv2.getStructuringElement` at output pixel `(x, y)`. -/
def windowMax (img : Image) (k : Nat) (x y : Nat) : Nat :=
  ((List.range k).flatMap (fun dy : Nat =>
    (List.range k).map (fun dx : Nat =>
      pixelAt img ((x : Int) + (dx : Int) - ((k / 2 : Nat) : Int))
        ((y : Int) + (dy : Int) - ((k / 2 : Nat) : Int))))).foldr max 0

/-- `cv2.dilate(img, kernel, iterations=1)` with the all-ones `k × k`
rectangle kernel: pixelwise window maximum, same shape as the input. -/
def dilateK (k : Nat) (img : Image) : Image :=
  img.mapIdx (fun y row => row.mapIdx (fun x _ => windowMax img k x y))

/-- `cv2.getStructuringElement(cv2.MORPH_RECT, (k, k))`: OpenCV's
`normalizeAnchor` asserts that the centred anchor lies inside the kernel
rectangle, which fails for a `0 × 0` size (`cv2.error`); modelled as
`none`.  For `k ≥ 1` only the size of the all-ones element matters to
`dilateK`, so the element is represented by its side. -/
def getStructElement (k : Nat) : Option Nat :=
  if k = 0 then none else some k

/-- `GenericObstacleDetector.create_obstacle_map(image, dilation_size,
safety_padding)` (`generic_obstacle_detector.py` lines 21–89).  The Step 2
thresholding (`cv2.adaptiveThreshold`, Gaussian 11×11 window, `C = 2`,
inverted) is abstracted as the parameter `thresh`: every claim about this
pipeline compares variants that contain the *same* thresholding step, so
nothing below depends on its definition.  `none` models a raised
`cv2.error`. -/
def createObstacleMap (thresh : Image → Image) (img : Image)
    (dilationSize safetyPadding : Nat) : Option Image :=
  match getStructElement dilationSize with
  | none => none
  | some k =>
    let binary := thresh img
    let dilated := dilateK k binary
    some (if 0 < safetyPadding then dilateK (safetyPadding * 2 + 1) dilated else dilated)

/-- `np.count_nonzero(map)` (`smart_router.py` line 57). -/
def countNonzero (img : Image) : Nat :=
  (img.map (fun row => row.countP (fun v => decide (v ≠ 0)))).sum

/-- `np.count_nonzero(map == 0)` (`smart_router.py` line 58). -/
def countZero (img : Image) : Nat :=
  (img.map (fun row => row.countP (fun v => decide (v = 0)))).sum

/-- Python's `round` to an integer: round half to even (banker's rounding),
on the exact rational value. -/
def bankersRound (q : ℚ) : ℤ :=
  let f := ⌊q⌋
  let r := q - f
  if r < 1 / 2 then f
  else if 1 / 2 < r then f + 1
  else if f % 2 = 0 then f else f + 1

/-- Python's `round(x, 2)`. -/
def pyRound2 (q : ℚ) : ℚ :=
  (bankersRound (q * 100) : ℚ) / 100

/-- The `'coverage'` entry of `SmartWireRouter.analyze_circuit`
(line 65): `round(obstacle_pixels / (obstacle_pixels + free_pixels) * 100, 2)`. -/
def analyzeCoverage (o f : Nat) : ℚ :=
  pyRound2 ((o : ℚ) / ((o : ℚ) + (f : ℚ)) * 100)

/-- The generic-detection branch of `SmartWireRouter.analyze_circuit`
(`smart_router.py` lines 46–66): build the obstacle map, then return the
obstacle pixel count, the free pixel count and the coverage percentage.
`none` models the exception propagated from the detector. -/
def analyzeCircuit (thresh : Image → Image) (img : Image)
    (dilationSize safetyPadding : Nat) : Option (Nat × Nat × ℚ) :=
  match createObstacleMap thresh img dilationSize safetyPadding with
  | none => none
  | some m => some (countNonzero m, countZero m, analyzeCoverage (countNonzero m) (countZero m))

/-- `SmartWireRouter.route_wire(start_point, end_point, routing_style)`
(`smart_router.py` lines 92–123): `none` models the `ValueError` raised
when no circuit has been analyzed; otherwise Manhattan routing with a
caller-level A* fallback on an empty result, or A* directly, then the
optimisation pass on a non-empty path. -/
def routeWire (currentMap : Option Grid) (s e : Pt) (style : String) :
    Option (List Pt) :=
  match currentMap with
  | none => none
  | some g =>
    let path :=
      if style = "manhattan" then
        let p := manhattanRouting g s e
        if p = [] then aStar g s e else p
      else aStar g s e
    some (if path = [] then path else optimizePath g path)

/-! ### Reachability, invariants and the termination measure of the search -/

/-- `q` is one 8-connected step from `p` (an offset from `directions`). -/
def adjB (p q : Pt) : Bool :=
  decide (((q.1 - p.1, q.2 - p.2) : Int × Int) ∈ directions)

/-- `freeChainB g l`: `l` is a nonempty sequence of in-bounds FREE cells
in which consecutive points are 8-connected single steps. -/
def freeChainB (g : Grid) : List Pt → Bool
  | [] => false
  | [p] => g.freeAt p.1 p.2
  | p :: q :: rest => g.freeAt p.1 p.2 && adjB p q && freeChainB g (q :: rest)

/-- `t` is reachable from `s` through in-bounds FREE cells under
8-connected moves. -/
def ReachableG (g : Grid) (s t : Pt) : Prop :=
  ∃ l : List Pt, freeChainB g l = true ∧ l.head? = some s ∧ l.getLast? = some t

/-- The points of the frontier. -/
def heapPts (st : AState) : List Pt :=
  st.heap.map (fun e => e.2)

/-- Number of domain points without a `g_score` yet. -/
def unsetCnt (D : List Pt) (st : AState) : Nat :=
  D.countP (fun p => (st.gS p).isNone)

/-- Number of domain points with a `g_score`. -/
def setCnt (D : List Pt) (st : AState) : Nat :=
  D.countP (fun p => (st.gS p).isSome)

/-- Sum of the assigned (scaled) `g_score` values over the domain. -/
def sumG (D : List Pt) (st : AState) : Nat :=
  (D.map (fun p => (st.gS p).getD 0)).sum

/-- The strictly decreasing termination measure of the `a_star` loop. -/
def measPhi (D : List Pt) (st : AState) : Nat :=
  (63 * D.length + 1) * unsetCnt D st + 9 * sumG D st + st.heap.length

/-- All assigned `g_score` values are bounded by `7 · setCnt`: each newly
assigned score is a previously assigned score plus a move cost `≤ 7`. -/
def ValBound (D : List Pt) (st : AState) : Prop :=
  ∀ p v, st.gS p = some v → v ≤ 7 * setCnt D st

/-- The soundness invariant of the `a_star` loop state. -/
structure SInv (g : Grid) (start : Pt) (st : AState) : Prop where
  gstart : st.gS start = some 0
  cstart : st.came start = none
  keyFree : ∀ p, p ≠ start → (st.gS p).isSome → g.freeAt p.1 p.2 = true
  keyCame : ∀ p, p ≠ start → (st.gS p).isSome → (st.came p).isSome
  cameKeys : ∀ p q, st.came p = some q → (st.gS p).isSome ∧ (st.gS q).isSome
  cameLt : ∀ p q, st.came p = some q → (st.gS q).getD 0 < (st.gS p).getD 0
  heapKeys : ∀ e ∈ st.heap, (st.gS e.2).isSome

/-- The completeness invariant: the goal's `g_score` entry, if any, still
has a frontier entry, and a scored point that has left the frontier has
all its free neighbours scored. -/
structure CInv (g : Grid) (goal : Pt) (st : AState) : Prop where
  goalHeap : (st.gS goal).isSome → goal ∈ heapPts st
  closure : ∀ p, (st.gS p).isSome → p ∉ heapPts st →
    ∀ n ∈ neighbors g p, (st.gS n).isSome

/-- A run of the `a_star` loop in which each iteration pops *any* entry
that is minimal for the lexicographic tuple order — the only place where
`heapq`'s behaviour could conceivably admit a choice.  `aStar` realises
this relation, and the relation is proven functional: the minimal entry is
unique as a value, so every run returns the same path. -/
inductive AStarRunR (g : Grid) (start goal : Pt) : AState → List Pt → Prop where
  | empty : ∀ st, st.heap = [] → AStarRunR g start goal st []
  | reachGoal : ∀ st e, e ∈ st.heap → (∀ a ∈ st.heap, entryLt a e = false) →
      e.2 = goal →
      AStarRunR g start goal st
        (reconstructPath st.came start goal ((st.gS goal).getD 0 + 1))
  | step : ∀ st e out, e ∈ st.heap → (∀ a ∈ st.heap, entryLt a e = false) →
      e.2 ≠ goal →
      AStarRunR g start goal
        (relaxAll g goal e.2 { st with heap := st.heap.erase e }) out →
      AStarRunR g start goal st out

/-! ### Concrete fixtures for counterexamples and witnesses -/

/-- 3 × 1 strip with an obstacle at `(1, 0)`. -/
def gridC1 : Grid :=
  ⟨3, 1, fun x y => decide (x = 1) && decide (y = 0)⟩

/-- A raw path stepping straight through the obstacle of `gridC1`. -/
def pathC1 : List Pt :=
  [(0, 0), (1, 0), (2, 0)]

/-- 5 × 3 grid with an obstacle at `(1, 1)`. -/
def gridC9 : Grid :=
  ⟨5, 3, fun x y => decide (x = 1) && decide (y = 1)⟩

/-- A path on `gridC9` on which one simplification pass keeps a waypoint
that a second pass removes. -/
def pathC9 : List Pt :=
  [(0, 0), (3, 1), (2, 2), (4, 0)]

/-- 1 × 1 grid whose only cell is an obstacle. -/
def gridC3 : Grid :=
  ⟨1, 1, fun _ _ => true⟩

/-- 3 × 3 grid with an obstacle at `(1, 0)`: both elbow candidates from
`(0, 0)` to `(2, 0)` are blocked but a diagonal detour exists. -/
def gridC4 : Grid :=
  ⟨3, 3, fun x y => decide (x = 1) && decide (y = 0)⟩

/-- 3 × 3 grid with no obstacles. -/
def gridFree : Grid :=
  ⟨3, 3, fun _ _ => false⟩

/-- Image dimensions: `H` rows of width `W`. -/
def imgDims (img : Image) (W H : Nat) : Prop :=
  img.length = H ∧ ∀ row ∈ img, row.length = W

/-! ## Theorems -/

/-! ### C5: move costs and heuristic of the search -/

theorem moveCostS_le_seven (c n : Pt) : moveCostS c n ≤ 7 := by
  simp only [moveCostS]
  split <;> omega

theorem moveCostS_pos (c n : Pt) : 0 < moveCostS c n := by
  simp only [moveCostS]
  split <;> omega

theorem mem_neighbors_elim {g : Grid} {p n : Pt} (h : n ∈ neighbors g p) :
    (∃ d ∈ directions, n = (p.1 + d.1, p.2 + d.2)) ∧ g.freeAt n.1 n.2 = true := by
  unfold neighbors at h
  rw [List.mem_filterMap] at h
  obtain ⟨d, hd, hf⟩ := h
  by_cases hfree : g.freeAt (p.1 + d.1) (p.2 + d.2) = true
  · simp only [hfree, if_pos] at hf
    cases hf
    exact ⟨⟨d, hd, rfl⟩, hfree⟩
  · simp only [Bool.not_eq_true] at hfree
    simp [hfree] at hf

/-- C5, counterexample: the diagonal move cost the code adds is the literal
`1.4`, which is not `√2`. -/
theorem c5_counterexample :
    ((moveCostQ ((0 : Int), (0 : Int)) ((1 : Int), (1 : Int)) : ℚ) : ℝ) ≠ Real.sqrt 2 := by
  have hval : (moveCostQ ((0 : Int), (0 : Int)) ((1 : Int), (1 : Int)) : ℚ) = 7 / 5 := by
    norm_num [moveCostQ]
  rw [hval]
  intro h
  have h2 : Real.sqrt 2 ^ 2 = 2 := Real.sq_sqrt (by norm_num)
  rw [← h] at h2
  norm_num at h2

/-- C5 (amended): over the 8-connected expansion, the cost added per step
is exactly `1.4` (i.e. `7/5`, not `√2`) when both coordinates change and
exactly `1.0` for an axis-aligned move; the scaled `Nat` costs used by the
embedded search are `5×` these exact values, and the (scaled) heuristic is
`5×` the Manhattan distance. -/
theorem c5_theorem :
    ∀ (g : Grid) (p n : Pt), n ∈ neighbors g p →
      (moveCostQ p n = if p.1 ≠ n.1 ∧ p.2 ≠ n.2 then 7 / 5 else 1) ∧
      ((moveCostS p n : ℚ) = 5 * moveCostQ p n) ∧
      (∀ a b : Pt, (heuristicS a b : ℚ) =
        5 * (((a.1 - b.1).natAbs : ℚ) + ((a.2 - b.2).natAbs : ℚ))) := by
  intro g p n hn
  obtain ⟨⟨d, hd, rfl⟩, -⟩ := mem_neighbors_elim hn
  refine ⟨?_, ?_, ?_⟩
  · fin_cases hd <;> simp [moveCostQ, self_eq_add_right]
  · fin_cases hd <;> simp [moveCostQ, moveCostS] <;> norm_num
  · intro a b
    simp only [heuristicS]
    push_cast
    ring

/-- C5 witness: instantiation at a concrete diagonal neighbour. -/
theorem c5_witness :
    (moveCostQ ((0 : Int), (0 : Int)) ((1 : Int), (1 : Int)) =
      if (0 : Int) ≠ (1 : Int) ∧ (0 : Int) ≠ (1 : Int) then 7 / 5 else 1) ∧
    ((moveCostS ((0 : Int), (0 : Int)) ((1 : Int), (1 : Int)) : ℚ) =
      5 * moveCostQ ((0 : Int), (0 : Int)) ((1 : Int), (1 : Int))) ∧
    (∀ a b : Pt, (heuristicS a b : ℚ) =
      5 * (((a.1 - b.1).natAbs : ℚ) + ((a.2 - b.2).natAbs : ℚ))) :=
  c5_theorem gridFree ((0 : Int), (0 : Int)) ((1 : Int), (1 : Int)) (by decide)

/-! ### C7: pipeline behaviour at `dilationSize = 0` and `1` -/

theorem listMapIdx_eq_self {α : Type} (l : List α) (f : Nat → α → α)
    (h : ∀ (i : ℕ) (hi : i < l.length), f i l[i] = l[i]) :
    List.mapIdx f l = l := by
  induction l generalizing f with
  | nil => rfl
  | cons a t ih =>
    rw [List.mapIdx_cons]
    have h0 := h 0 (by simp)
    simp only [List.getElem_cons_zero] at h0
    rw [h0]
    congr 1
    exact ih _ (fun i hi => by simpa using h (i + 1) (by simpa using Nat.succ_lt_succ hi))

theorem windowMax_one (img : Image) (x y : Nat) :
    windowMax img 1 x y = pixelAt img x y := by
  unfold windowMax
  rw [show List.range 1 = [0] from rfl]
  simp

theorem dilateK_one (img : Image) : dilateK 1 img = img := by
  unfold dilateK
  refine listMapIdx_eq_self _ _ (fun y hy => ?_)
  refine listMapIdx_eq_self img[y] _ (fun x hx => ?_)
  rw [windowMax_one]
  calc pixelAt img x y = (img.getD y []).getD x 0 := by
        unfold pixelAt
        rw [if_pos ⟨Int.ofNat_nonneg y, Int.ofNat_nonneg x⟩]
        simp only [Int.toNat_ofNat]
    _ = (img[y]).getD x 0 := by rw [List.getD_eq_getElem _ _ hy]
    _ = img[y][x] := List.getD_eq_getElem _ _ hx

/-- C7, counterexample: with `dilation_size = 0` the builder does not
succeed — `cv2.getStructuringElement(MORPH_RECT, (0, 0))` raises
(`none`), instead of degenerating the stroke-merging dilation to a no-op. -/
theorem c7_counterexample :
    createObstacleMap id [[0]] 0 5 = none := rfl

/-- C7 (amended): `dilationSize = 0` raises `cv2.error` rather than
succeeding; it is `dilationSize = 1` that makes the stroke-merging
dilation a no-op, producing the thresholded image dilated only by the
safety-padding square element of side `2·safetyPadding + 1` (for
`safetyPadding = 0` that dilation is skipped, and a side-1 dilation is the
identity, so the two readings agree). -/
theorem c7_theorem :
    ∀ (thresh : Image → Image) (img : Image) (pad : Nat),
      createObstacleMap thresh img 0 pad = none ∧
      createObstacleMap thresh img 1 pad =
        some (dilateK (pad * 2 + 1) (thresh img)) := by
  intro thresh img pad
  constructor
  · rfl
  · show (match getStructElement 1 with
      | none => none
      | some k =>
        let binary := thresh img
        let dilated := dilateK k binary
        some (if 0 < pad then dilateK (pad * 2 + 1) dilated else dilated)) =
      some (dilateK (pad * 2 + 1) (thresh img))
    have h1 : getStructElement 1 = some 1 := rfl
    rw [h1]
    simp only [dilateK_one]
    rcases Nat.eq_zero_or_pos pad with hp | hp
    · subst hp
      simp [dilateK_one]
    · simp [hp]

/-! ### C8: the coverage invariant of `analyze_circuit` -/

theorem dilateK_dims (k : Nat) (img : Image) (W H : Nat)
    (h : imgDims img W H) : imgDims (dilateK k img) W H := by
  obtain ⟨hH, hW⟩ := h
  constructor
  · rw [dilateK, List.length_mapIdx, hH]
  · intro row hrow
    rw [dilateK] at hrow
    rw [List.mem_iff_getElem] at hrow
    obtain ⟨i, hi, hrow⟩ := hrow
    rw [List.getElem_mapIdx] at hrow
    rw [← hrow, List.length_mapIdx]
    exact hW _ (List.getElem_mem _)

theorem row_countP_split (row : List Nat) :
    row.countP (fun v => decide (v ≠ 0)) + row.countP (fun v => decide (v = 0)) =
      row.length := by
  have h := row.length_eq_countP_add_countP (fun v => decide (v ≠ 0))
  rw [h]
  congr 1
  apply List.countP_congr
  intro a _
  simp

theorem counts_sum (m : Image) (W H : Nat) (h : imgDims m W H) :
    countNonzero m + countZero m = W * H := by
  obtain ⟨hH, hW⟩ := h
  unfold countNonzero countZero
  rw [← List.sum_map_add]
  have hcongr : m.map (fun row =>
      row.countP (fun v => decide (v ≠ 0)) + row.countP (fun v => decide (v = 0))) =
      m.map (fun _ => W) := by
    apply List.map_congr_left
    intro row hrow
    rw [row_countP_split, hW row hrow]
  rw [hcongr, List.map_const', List.sum_replicate, smul_eq_mul, hH, Nat.mul_comm]

/-- C8: on every image accepted by the analysis (for any thresholding step
that preserves the image shape, as `cv2.adaptiveThreshold` does),
`obstacle_pixels + free_pixels = W · H` and the returned coverage is
`round(100 · obstacle / (obstacle + free), 2)`. -/
theorem c8_theorem :
    ∀ (thresh : Image → Image) (img : Image) (W H d p o f : Nat) (c : ℚ),
      (∀ i W' H', imgDims i W' H' → imgDims (thresh i) W' H') →
      imgDims img W H →
      analyzeCircuit thresh img d p = some (o, f, c) →
      o + f = W * H ∧ c = pyRound2 (100 * (o : ℚ) / ((o : ℚ) + (f : ℚ))) := by
  intro thresh img W H d p o f c hthresh hdims hrun
  unfold analyzeCircuit at hrun
  rcases hm : createObstacleMap thresh img d p with _ | m
  · rw [hm] at hrun
    exact absurd hrun (by simp)
  · rw [hm] at hrun
    simp only [Option.some.injEq, Prod.mk.injEq] at hrun
    obtain ⟨ho, hf, hc⟩ := hrun
    have hmdims : imgDims m W H := by
      unfold createObstacleMap at hm
      rcases hk : getStructElement d with _ | k
      · rw [hk] at hm
        exact absurd hm (by simp)
      · rw [hk] at hm
        simp only [Option.some.injEq] at hm
        have hbin : imgDims (dilateK k (thresh img)) W H :=
          dilateK_dims _ _ _ _ (hthresh _ _ _ hdims)
        rcases Nat.eq_zero_or_pos p with hp | hp
        · subst hp
          rw [if_neg (lt_irrefl 0)] at hm
          rw [← hm]
          exact hbin
        · rw [if_pos hp] at hm
          rw [← hm]
          exact dilateK_dims _ _ _ _ hbin
    refine ⟨?_, ?_⟩
    · rw [← ho, ← hf]
      exact counts_sum m W H hmdims
    · rw [← hc, ← ho, ← hf]
      unfold analyzeCoverage
      congr 1
      rw [div_mul_eq_mul_div, mul_comm]

/-- C8 witness: a concrete 2 × 1 image under the identity threshold. -/
theorem c8_witness :
    (1 + 1 = 2 * 1 ∧
      analyzeCoverage 1 1 =
        pyRound2 (100 * ((1 : Nat) : ℚ) / (((1 : Nat) : ℚ) + ((1 : Nat) : ℚ)))) :=
  c8_theorem id [[255, 0]] 2 1 1 0 1 1 (analyzeCoverage 1 1)
    (fun _ _ _ h => h) (by constructor <;> simp)
    (by
      unfold analyzeCircuit
      rw [show createObstacleMap id [[255, 0]] 1 0 = some [[255, 0]] by
        unfold createObstacleMap
        rw [show getStructElement 1 = some 1 from rfl]
        dsimp only
        rw [if_neg (lt_irrefl 0), dilateK_one]
        rfl]
      rfl)

/-! ### C6: the line-of-sight walk -/

/-- Unfolding of one non-target step of the line walk. -/
theorem bres_step_line (x1 y1 dx dy xs ys : Int) (n : Nat) (x y err : Int)
    (htgt : ¬(x = x1 ∧ y = y1)) :
    bresLineAux x1 y1 dx dy xs ys (n + 1) x y err =
      (x, y) :: bresLineAux x1 y1 dx dy xs ys n
        (if -dy < 2 * err then x + xs else x)
        (if 2 * err < dx then y + ys else y)
        ((if 2 * err < dx then
            (if -dy < 2 * err then err - dy else err) + dx
          else (if -dy < 2 * err then err - dy else err))) := by
  conv_lhs => rw [bresLineAux]
  rw [if_neg htgt]

/-- Unfolding of one unblocked, non-target step of `_can_connect_directly`. -/
theorem bres_step_can (g : Grid) (x1 y1 dx dy xs ys : Int) (n : Nat) (x y err : Int)
    (htgt : ¬(x = x1 ∧ y = y1)) (hb : g.blockedAt x y = false) :
    canConnectAux g x1 y1 dx dy xs ys (n + 1) x y err =
      canConnectAux g x1 y1 dx dy xs ys n
        (if -dy < 2 * err then x + xs else x)
        (if 2 * err < dx then y + ys else y)
        ((if 2 * err < dx then
            (if -dy < 2 * err then err - dy else err) + dx
          else (if -dy < 2 * err then err - dy else err))) := by
  conv_lhs => rw [canConnectAux]
  rw [hb]
  simp only [Bool.false_eq_true, if_false]
  rw [if_neg htgt]

/-- A blocked or out-of-bounds sampled cell makes the walk return false. -/
theorem bres_step_can_blocked (g : Grid) (x1 y1 dx dy xs ys : Int) (n : Nat) (x y err : Int)
    (hb : g.blockedAt x y = true) :
    canConnectAux g x1 y1 dx dy xs ys (n + 1) x y err = false := by
  conv_lhs => rw [canConnectAux]
  rw [hb]
  simp

/-- Main Bresenham invariant: from any state of the walk (remaining
distances within `dx`/`dy` and the error-term identity), with enough fuel
the recorded line starts at the current cell and ends exactly at the
target, and the obstacle-checking walk returns true iff every recorded
cell is unblocked. -/
theorem bres_main (g : Grid) (x1 y1 dx dy xs ys : Int)
    (hxs : xs = 1 ∨ xs = -1) (hys : ys = 1 ∨ ys = -1)
    (hdx : 0 ≤ dx) (hdy : 0 ≤ dy) :
    ∀ (fuel : Nat) (x y err : Int),
      0 ≤ (x1 - x) * xs → (x1 - x) * xs ≤ dx →
      0 ≤ (y1 - y) * ys → (y1 - y) * ys ≤ dy →
      err = dx - dy + (x1 - x) * xs * dy - (y1 - y) * ys * dx →
      (x1 - x) * xs + (y1 - y) * ys < (fuel : Int) →
      (bresLineAux x1 y1 dx dy xs ys fuel x y err).head? = some (x, y) ∧
      (bresLineAux x1 y1 dx dy xs ys fuel x y err).getLast? = some (x1, y1) ∧
      canConnectAux g x1 y1 dx dy xs ys fuel x y err =
        (bresLineAux x1 y1 dx dy xs ys fuel x y err).all
          (fun p => !g.blockedAt p.1 p.2) := by
  have hxs2 : xs * xs = 1 := by rcases hxs with h | h <;> rw [h] <;> norm_num
  have hys2 : ys * ys = 1 := by rcases hys with h | h <;> rw [h] <;> norm_num
  intro fuel
  induction fuel with
  | zero =>
    intro x y err hrx0 hrxd hry0 hryd herr hfuel
    exfalso
    rw [Nat.cast_zero] at hfuel
    linarith
  | succ n ih =>
    intro x y err hrx0 hrxd hry0 hryd herr hfuel
    by_cases htgt : x = x1 ∧ y = y1
    · obtain ⟨hx, hy⟩ := htgt
      subst hx; subst hy
      refine ⟨by simp [bresLineAux], by simp [bresLineAux], ?_⟩
      by_cases hb : g.blockedAt x y = true
      · simp [bresLineAux, canConnectAux, hb]
      · simp only [Bool.not_eq_true] at hb
        simp [bresLineAux, canConnectAux, hb]
    · -- not at the target
      have hxne : (x1 - x) * xs = 0 → x = x1 := by
        intro h
        rcases hxs with h1 | h1 <;> rw [h1] at h <;> omega
      have hyne : (y1 - y) * ys = 0 → y = y1 := by
        intro h
        rcases hys with h1 | h1 <;> rw [h1] at h <;> omega
      have hstep : (-dy < 2 * err) ∨ (2 * err < dx) := by
        by_contra hcon
        push_neg at hcon
        obtain ⟨h1, h2⟩ := hcon
        have hdx0 : dx = 0 := by linarith
        have hdy0 : dy = 0 := by linarith
        exact htgt ⟨hxne (le_antisymm (by linarith) hrx0),
          hyne (le_antisymm (by linarith) hry0)⟩
      have hrx1 : -dy < 2 * err → 1 ≤ (x1 - x) * xs := by
        intro hc
        rcases lt_or_eq_of_le hrx0 with h | h
        · omega
        · exfalso
          have hx1 : x = x1 := hxne h.symm
          have hry1 : 1 ≤ (y1 - y) * ys := by
            rcases lt_or_eq_of_le hry0 with h2 | h2
            · omega
            · exact absurd ⟨hx1, hyne h2.symm⟩ htgt
          rw [herr, ← h] at hc
          nlinarith [mul_nonneg (show (0:ℤ) ≤ (y1 - y) * ys - 1 by linarith) hdx]
      have hry2 : 2 * err < dx → 1 ≤ (y1 - y) * ys := by
        intro hc
        rcases lt_or_eq_of_le hry0 with h | h
        · omega
        · exfalso
          have hy1 : y = y1 := hyne h.symm
          have hrx2 : 1 ≤ (x1 - x) * xs := by
            rcases lt_or_eq_of_le hrx0 with h2 | h2
            · omega
            · exact absurd ⟨hxne h2.symm, hy1⟩ htgt
          rw [herr, ← h] at hc
          nlinarith [mul_nonneg (show (0:ℤ) ≤ (x1 - x) * xs - 1 by linarith) hdy]
      -- the new remaining distances after one step
      have hnewx : ∀ hc : -dy < 2 * err, (x1 - (x + xs)) * xs = (x1 - x) * xs - 1 := by
        intro hc
        have : (x1 - (x + xs)) * xs = (x1 - x) * xs - xs * xs := by ring
        rw [this, hxs2]
      have hnewy : ∀ hc : 2 * err < dx, (y1 - (y + ys)) * ys = (y1 - y) * ys - 1 := by
        intro hc
        have : (y1 - (y + ys)) * ys = (y1 - y) * ys - ys * ys := by ring
        rw [this, hys2]
      by_cases hc1 : -dy < 2 * err
      case pos =>
       by_cases hc2 : 2 * err < dx
       case pos =>
        have hx' := hnewx hc1
        have hy' := hnewy hc2
        have hrec := ih (x + xs) (y + ys) (err - dy + dx)
          (by rw [hx']; linarith [hrx1 hc1]) (by rw [hx']; linarith)
          (by rw [hy']; linarith [hry2 hc2]) (by rw [hy']; linarith)
          (by rw [hx', hy']; rw [herr]; ring)
          (by rw [hx', hy']; push_cast at hfuel ⊢; linarith)
        obtain ⟨ha, hb, hcq⟩ := hrec
        have hline := bres_step_line x1 y1 dx dy xs ys n x y err htgt
        simp only [if_pos hc1, if_pos hc2] at hline
        obtain ⟨z, rest, hzr⟩ : ∃ z rest,
            bresLineAux x1 y1 dx dy xs ys n (x + xs) (y + ys) (err - dy + dx) = z :: rest := by
          rcases hh : bresLineAux x1 y1 dx dy xs ys n (x + xs) (y + ys) (err - dy + dx) with _ | ⟨z, rest⟩
          · rw [hh] at ha; exact absurd ha (by simp)
          · exact ⟨z, rest, rfl⟩
        refine ⟨?_, ?_, ?_⟩
        · rw [hline]; rfl
        · rw [hline, hzr, List.getLast?_cons_cons, ← hzr, hb]
        · by_cases hbk : g.blockedAt x y = true
          · rw [bres_step_can_blocked g x1 y1 dx dy xs ys n x y err hbk, hline]
            simp [hbk]
          · simp only [Bool.not_eq_true] at hbk
            rw [bres_step_can g x1 y1 dx dy xs ys n x y err htgt hbk]
            simp only [if_pos hc1, if_pos hc2]
            rw [hline]
            simp [hbk, hcq]
       case neg =>
        have hx' := hnewx hc1
        have hrec := ih (x + xs) y (err - dy)
          (by rw [hx']; linarith [hrx1 hc1]) (by rw [hx']; linarith)
          hry0 hryd
          (by rw [hx']; rw [herr]; ring)
          (by rw [hx']; push_cast at hfuel ⊢; linarith)
        obtain ⟨ha, hb, hcq⟩ := hrec
        have hline := bres_step_line x1 y1 dx dy xs ys n x y err htgt
        simp only [if_pos hc1, if_neg hc2] at hline
        obtain ⟨z, rest, hzr⟩ : ∃ z rest,
            bresLineAux x1 y1 dx dy xs ys n (x + xs) y (err - dy) = z :: rest := by
          rcases hh : bresLineAux x1 y1 dx dy xs ys n (x + xs) y (err - dy) with _ | ⟨z, rest⟩
          · rw [hh] at ha; exact absurd ha (by simp)
          · exact ⟨z, rest, rfl⟩
        refine ⟨?_, ?_, ?_⟩
        · rw [hline]; rfl
        · rw [hline, hzr, List.getLast?_cons_cons, ← hzr, hb]
        · by_cases hbk : g.blockedAt x y = true
          · rw [bres_step_can_blocked g x1 y1 dx dy xs ys n x y err hbk, hline]
            simp [hbk]
          · simp only [Bool.not_eq_true] at hbk
            rw [bres_step_can g x1 y1 dx dy xs ys n x y err htgt hbk]
            simp only [if_pos hc1, if_neg hc2]
            rw [hline]
            simp [hbk, hcq]
      case neg =>
       by_cases hc2 : 2 * err < dx
       case pos =>
        have hy' := hnewy hc2
        have hrec := ih x (y + ys) (err + dx)
          hrx0 hrxd
          (by rw [hy']; linarith [hry2 hc2]) (by rw [hy']; linarith)
          (by rw [hy']; rw [herr]; ring)
          (by rw [hy']; push_cast at hfuel ⊢; linarith)
        obtain ⟨ha, hb, hcq⟩ := hrec
        have hline := bres_step_line x1 y1 dx dy xs ys n x y err htgt
        simp only [if_neg hc1, if_pos hc2] at hline
        obtain ⟨z, rest, hzr⟩ : ∃ z rest,
            bresLineAux x1 y1 dx dy xs ys n x (y + ys) (err + dx) = z :: rest := by
          rcases hh : bresLineAux x1 y1 dx dy xs ys n x (y + ys) (err + dx) with _ | ⟨z, rest⟩
          · rw [hh] at ha; exact absurd ha (by simp)
          · exact ⟨z, rest, rfl⟩
        refine ⟨?_, ?_, ?_⟩
        · rw [hline]; rfl
        · rw [hline, hzr, List.getLast?_cons_cons, ← hzr, hb]
        · by_cases hbk : g.blockedAt x y = true
          · rw [bres_step_can_blocked g x1 y1 dx dy xs ys n x y err hbk, hline]
            simp [hbk]
          · simp only [Bool.not_eq_true] at hbk
            rw [bres_step_can g x1 y1 dx dy xs ys n x y err htgt hbk]
            simp only [if_neg hc1, if_pos hc2]
            rw [hline]
            simp [hbk, hcq]
       case neg =>
        exact absurd hstep (by push_neg; constructor <;> omega)


/-- `_can_connect_directly` equals the all-cells-unblocked test over the
rasterised line, whose first sample is `a` and whose last sample is `b`. -/
theorem canConnect_spec (g : Grid) (a b : Pt) :
    (bresLine a b).head? = some a ∧
    (bresLine a b).getLast? = some b ∧
    canConnect g a b = (bresLine a b).all (fun p => !g.blockedAt p.1 p.2) := by
  unfold canConnect bresLine
  have hrx : (b.1 - a.1) * (if a.1 < b.1 then 1 else (-1 : Int)) = ((b.1 - a.1).natAbs : Int) := by
    split
    · rw [mul_one, Int.natAbs_of_nonneg (by omega)]
    · rw [show (b.1 - a.1).natAbs = (a.1 - b.1).natAbs by omega,
        Int.natAbs_of_nonneg (by omega : (0:Int) ≤ a.1 - b.1)]
      ring
  have hry : (b.2 - a.2) * (if a.2 < b.2 then 1 else (-1 : Int)) = ((b.2 - a.2).natAbs : Int) := by
    split
    · rw [mul_one, Int.natAbs_of_nonneg (by omega)]
    · rw [show (b.2 - a.2).natAbs = (a.2 - b.2).natAbs by omega,
        Int.natAbs_of_nonneg (by omega : (0:Int) ≤ a.2 - b.2)]
      ring
  have h := bres_main g b.1 b.2 ((b.1 - a.1).natAbs : Int) ((b.2 - a.2).natAbs : Int)
    (if a.1 < b.1 then 1 else -1) (if a.2 < b.2 then 1 else -1)
    (by split <;> simp) (by split <;> simp)
    (by positivity) (by positivity)
    (bresFuel a b) a.1 a.2 (((b.1 - a.1).natAbs : Int) - ((b.2 - a.2).natAbs : Int))
    (by rw [hrx]; positivity) (by rw [hrx])
    (by rw [hry]; positivity) (by rw [hry])
    (by rw [hrx, hry]; ring)
    (by rw [hrx, hry]; unfold bresFuel; push_cast; omega)
  obtain ⟨h1, h2, h3⟩ := h
  refine ⟨?_, ?_, ?_⟩
  · rw [h1]
  · rw [h2]
  · rw [h3]

/-- C6: for every grid and every pair of points (in range or not), the
line-of-sight test returns true iff every cell sampled on the rasterised
line from `a` to `b` is in bounds and FREE (out-of-range samples are
treated as OBSTACLE, never raising), and both endpoints are among the
sampled cells (`a` first, `b` last). -/
theorem c6_theorem : ∀ (g : Grid) (a b : Pt),
    (canConnect g a b = true ↔ ∀ p ∈ bresLine a b, g.blockedAt p.1 p.2 = false) ∧
    (bresLine a b).head? = some a ∧
    (bresLine a b).getLast? = some b := by
  intro g a b
  obtain ⟨h1, h2, h3⟩ := canConnect_spec g a b
  refine ⟨?_, h1, h2⟩
  rw [h3, List.all_eq_true]
  constructor
  · intro h p hp
    have := h p hp
    simpa using this
  · intro h p hp
    simpa using h p hp

/-! ### C1 and C9: the path simplification pass -/

/-- The scan pointer only moves forward. -/
theorem scanJ_ge (g : Grid) (path : List Pt) (i : Nat) : ∀ j, j ≤ scanJ g path i j := by
  intro j
  induction j using scanJ.induct g path i with
  | case1 j h hcan ih =>
    rw [scanJ, dif_pos h, if_pos hcan]
    omega
  | case2 j h hcan =>
    rw [scanJ, dif_pos h, if_neg hcan]
  | case3 j h =>
    rw [scanJ, dif_neg h]

/-- The scan pointer stays within the path. -/
theorem scanJ_le (g : Grid) (path : List Pt) (i : Nat) :
    ∀ j, j ≤ path.length → scanJ g path i j ≤ path.length := by
  intro j
  induction j using scanJ.induct g path i with
  | case1 j h hcan ih =>
    intro _
    rw [scanJ, dif_pos h, if_pos hcan]
    exact ih (by omega)
  | case2 j h hcan =>
    intro hj
    rw [scanJ, dif_pos h, if_neg hcan]
    exact hj
  | case3 j h =>
    intro hj
    rw [scanJ, dif_neg h]
    exact hj

/-- Every index passed over by the scan is directly reachable from the anchor. -/
theorem scanJ_true (g : Grid) (path : List Pt) (i : Nat) :
    ∀ j m, j ≤ m → m < scanJ g path i j →
      canConnect g (path.getD i ((0 : Int), (0 : Int))) (path.getD m ((0 : Int), (0 : Int))) = true := by
  intro j
  induction j using scanJ.induct g path i with
  | case1 j h hcan ih =>
    intro m hjm hm
    rcases Nat.eq_or_lt_of_le hjm with h1 | h1
    · rw [← h1]; exact hcan
    · exact ih m h1 (by rw [scanJ, dif_pos h, if_pos hcan] at hm; exact hm)
  | case2 j h hcan =>
    intro m hjm hm
    rw [scanJ, dif_pos h, if_neg hcan] at hm
    omega
  | case3 j h =>
    intro m hjm hm
    rw [scanJ, dif_neg h] at hm
    omega

/-- When the scan stops inside the path, the stopping index is not reachable. -/
theorem scanJ_stop (g : Grid) (path : List Pt) (i : Nat) :
    ∀ j, scanJ g path i j < path.length →
      canConnect g (path.getD i ((0 : Int), (0 : Int)))
        (path.getD (scanJ g path i j) ((0 : Int), (0 : Int))) = false := by
  intro j
  induction j using scanJ.induct g path i with
  | case1 j h hcan ih =>
    intro hlt
    rw [scanJ, dif_pos h, if_pos hcan] at hlt ⊢
    exact ih hlt
  | case2 j h hcan =>
    intro hlt
    rw [scanJ, dif_pos h, if_neg hcan] at hlt ⊢
    simpa using hcan
  | case3 j h =>
    intro hlt
    rw [scanJ, dif_neg h] at hlt
    omega


/-- The emission loop emits at least one waypoint while `i < len - 1`. -/
theorem optLoop_ne_nil (g : Grid) (path : List Pt) (i : Nat)
    (h : i < path.length - 1) : optLoop g path i ≠ [] := by
  rw [optLoop, dif_pos h]
  dsimp only
  split <;> simp

/-- The last waypoint the loop emits is the final point of the input path. -/
theorem optLoop_last (g : Grid) (path : List Pt) :
    ∀ i, i < path.length - 1 →
      (optLoop g path i).getLast? =
        some (path.getD (path.length - 1) ((0 : Int), (0 : Int))) := by
  intro i
  induction i using optLoop.induct g path with
  | case1 i h j h2 ih =>
    intro _
    rw [optLoop, dif_pos h]
    dsimp only
    rw [dif_pos h2]
    have hjle : j ≤ path.length := scanJ_le g path i (i + 1) (by omega)
    rcases Nat.lt_or_ge (j - 1) (path.length - 1) with hlt | hge
    · -- recursion continues
      have hne := optLoop_ne_nil g path (j - 1) hlt
      rcases hr : optLoop g path (j - 1) with _ | ⟨z, rest⟩
      · exact absurd hr hne
      · rw [List.getLast?_cons_cons, ← hr]
        exact ih hlt
    · -- j - 1 = path.length - 1 : last emission
      have hj1 : j - 1 = path.length - 1 := by omega
      have : optLoop g path (j - 1) = [] := by
        rw [optLoop, dif_neg (by omega)]
      rw [this, hj1]
      rfl
  | case2 i h j h2 ih =>
    intro _
    rw [optLoop, dif_pos h]
    dsimp only
    rw [dif_neg h2]
    rcases Nat.lt_or_ge (i + 1) (path.length - 1) with hlt | hge
    · have hne := optLoop_ne_nil g path (i + 1) hlt
      rcases hr : optLoop g path (i + 1) with _ | ⟨z, rest⟩
      · exact absurd hr hne
      · rw [List.getLast?_cons_cons, ← hr]
        exact ih hlt
    · have hj1 : i + 1 = path.length - 1 := by omega
      have : optLoop g path (i + 1) = [] := by
        rw [optLoop, dif_neg (by omega)]
      rw [this, hj1]
      rfl
  | case3 i h =>
    intro h'
    omega

/-- The loop emits at most one waypoint per remaining input index. -/
theorem optLoop_len (g : Grid) (path : List Pt) :
    ∀ i, (optLoop g path i).length ≤ path.length - 1 - i := by
  intro i
  induction i using optLoop.induct g path with
  | case1 i h j h2 ih =>
    rw [optLoop, dif_pos h]
    dsimp only
    rw [dif_pos h2]
    simp only [List.length_cons]
    rw [show scanJ g path i (i + 1) = j from rfl]
    have hge : i + 1 ≤ scanJ g path i (i + 1) := scanJ_ge g path i (i + 1)
    rw [show scanJ g path i (i + 1) = j from rfl] at hge
    omega
  | case2 i h j h2 ih =>
    rw [optLoop, dif_pos h]
    dsimp only
    rw [dif_neg h2]
    simp only [List.length_cons]
    omega
  | case3 i h =>
    rw [optLoop, dif_neg h]
    simp

/-- If consecutive input points see each other, consecutive emitted
waypoints see each other (anchored at `path[i]`). -/
theorem optLoop_chain (g : Grid) (path : List Pt)
    (hcons : ∀ m, m + 1 < path.length →
      canConnect g (path.getD m ((0 : Int), (0 : Int)))
        (path.getD (m + 1) ((0 : Int), (0 : Int))) = true) :
    ∀ i, i < path.length - 1 →
      List.Chain' (fun p q => canConnect g p q = true)
        (path.getD i ((0 : Int), (0 : Int)) :: optLoop g path i) := by
  intro i
  induction i using optLoop.induct g path with
  | case1 i h j h2 ih =>
    intro _
    have hjle : j ≤ path.length := scanJ_le g path i (i + 1) (by omega)
    have hcan : canConnect g (path.getD i ((0 : Int), (0 : Int)))
        (path.getD (j - 1) ((0 : Int), (0 : Int))) = true := by
      refine scanJ_true g path i (i + 1) (j - 1) (by omega) (by omega)
    rw [optLoop, dif_pos h]
    dsimp only
    rw [dif_pos h2]
    rcases Nat.lt_or_ge (j - 1) (path.length - 1) with hlt | hge
    · have hrest := ih hlt
      exact List.Chain'.cons hcan hrest
    · have : optLoop g path (j - 1) = [] := by
        rw [optLoop, dif_neg (by omega)]
      rw [this]
      exact List.chain'_pair.mpr hcan
  | case2 i h j h2 ih =>
    intro _
    -- here the scan did not advance: j = i + 1, and hcons provides the step
    have hcan : canConnect g (path.getD i ((0 : Int), (0 : Int)))
        (path.getD (i + 1) ((0 : Int), (0 : Int))) = true := hcons i (by omega)
    rw [optLoop, dif_pos h]
    dsimp only
    rw [dif_neg h2]
    rcases Nat.lt_or_ge (i + 1) (path.length - 1) with hlt | hge
    · exact List.Chain'.cons hcan (ih hlt)
    · have : optLoop g path (i + 1) = [] := by
        rw [optLoop, dif_neg (by omega)]
      rw [this]
      exact List.chain'_pair.mpr hcan
  | case3 i h =>
    intro h'
    omega


/-- `getLast?` as a `getD` at the final index. -/
theorem getLast?_eq_getD (path : List Pt) (h : path ≠ []) :
    path.getLast? = some (path.getD (path.length - 1) ((0 : Int), (0 : Int))) := by
  have hlen : 0 < path.length := List.length_pos.mpr h
  rw [List.getLast?_eq_getElem?, List.getElem?_eq_getElem (by omega),
    List.getD_eq_getElem _ _ (by omega)]

/-- For paths of length `≥ 3` the final `if optimized[-1] != path[-1]`
guard of `optimize_path` never fires: the loop always ends by emitting
`path[-1]`. -/
theorem optimizePath_eq (g : Grid) (path : List Pt) (h3 : 3 ≤ path.length) :
    optimizePath g path =
      path.getD 0 ((0 : Int), (0 : Int)) :: optLoop g path 0 := by
  unfold optimizePath
  rw [if_neg (by omega)]
  dsimp only
  rw [if_neg]
  simp only [ne_eq, Decidable.not_not]
  have h0 : (0 : Nat) < path.length - 1 := by omega
  have hlast := optLoop_last g path 0 h0
  have hnil : optLoop g path 0 ≠ [] := optLoop_ne_nil g path 0 h0
  rcases hr : optLoop g path 0 with _ | ⟨z, rest⟩
  · exact absurd hr hnil
  · rw [List.getLast?_cons_cons, ← hr, hlast,
      getLast?_eq_getD path (by intro hc; rw [hc] at h3; simp at h3)]

/-- `optimize_path` preserves the first waypoint. -/
theorem optimizePath_head? (g : Grid) (path : List Pt) (h : path ≠ []) :
    (optimizePath g path).head? = path.head? := by
  rcases Nat.lt_or_ge path.length 3 with hlen | hlen
  · unfold optimizePath
    rw [if_pos hlen]
  · rw [optimizePath_eq g path hlen]
    rcases path with _ | ⟨a, rest⟩
    · exact absurd rfl h
    · rfl

/-- `optimize_path` preserves the last waypoint. -/
theorem optimizePath_getLast? (g : Grid) (path : List Pt) (h : path ≠ []) :
    (optimizePath g path).getLast? = path.getLast? := by
  rcases Nat.lt_or_ge path.length 3 with hlen | hlen
  · unfold optimizePath
    rw [if_pos hlen]
  · rw [optimizePath_eq g path hlen]
    have h0 : (0 : Nat) < path.length - 1 := by omega
    have hlast := optLoop_last g path 0 h0
    have hnil : optLoop g path 0 ≠ [] := optLoop_ne_nil g path 0 h0
    rcases hr : optLoop g path 0 with _ | ⟨z, rest⟩
    · exact absurd hr hnil
    · rw [List.getLast?_cons_cons, ← hr, hlast, getLast?_eq_getD path h]

/-- `optimize_path` of a nonempty path is nonempty. -/
theorem optimizePath_ne_nil (g : Grid) (path : List Pt) (h : path ≠ []) :
    optimizePath g path ≠ [] := by
  rcases Nat.lt_or_ge path.length 3 with hlen | hlen
  · unfold optimizePath
    rw [if_pos hlen]
    exact h
  · rw [optimizePath_eq g path hlen]
    simp

/-- `optimize_path` never adds waypoints. -/
theorem optimizePath_length (g : Grid) (path : List Pt) :
    (optimizePath g path).length ≤ path.length := by
  rcases Nat.lt_or_ge path.length 3 with hlen | hlen
  · unfold optimizePath
    rw [if_pos hlen]
  · rw [optimizePath_eq g path hlen]
    have := optLoop_len g path 0
    simp only [List.length_cons]
    omega

/-- C1 (amended): for inputs shorter than 3 points `optimize_path` is the
identity; for any longer input path whose *consecutive points already have
clear line of sight* (as every raw path produced by the routers from a
FREE start does), the output starts at `path[0]`, ends at `path[-1]`,
every consecutive output pair has clear line of sight, and the waypoint
count is at most the input's.  (Without the line-of-sight hypothesis on
the input the line-of-sight guarantee fails, see the counterexample.) -/
theorem c1_theorem :
    ∀ (g : Grid) (path : List Pt),
      (path.length < 3 → optimizePath g path = path) ∧
      (3 ≤ path.length →
        (∀ m, m + 1 < path.length →
          canConnect g (path.getD m ((0 : Int), (0 : Int)))
            (path.getD (m + 1) ((0 : Int), (0 : Int))) = true) →
        (optimizePath g path).head? = path.head? ∧
        (optimizePath g path).getLast? = path.getLast? ∧
        List.Chain' (fun p q => canConnect g p q = true) (optimizePath g path) ∧
        (optimizePath g path).length ≤ path.length) := by
  intro g path
  constructor
  · intro hlen
    unfold optimizePath
    rw [if_pos hlen]
  · intro hlen hcons
    have hne : path ≠ [] := by intro hc; rw [hc] at hlen; simp at hlen
    refine ⟨optimizePath_head? g path hne, optimizePath_getLast? g path hne, ?_,
      optimizePath_length g path⟩
    rw [optimizePath_eq g path hlen]
    have h0 : (0 : Nat) < path.length - 1 := by omega
    exact optLoop_chain g path hcons 0 h0

/-- On a 3-point path one pass either removes the middle waypoint or
returns the input unchanged. -/
theorem optLoop3 (g : Grid) (a b c : Pt) :
    optimizePath g [a, b, c] = [a, c] ∨ optimizePath g [a, b, c] = [a, b, c] := by
  have hO2 : optLoop g [a, b, c] 2 = [] := by
    rw [optLoop, dif_neg (by norm_num)]
  have hO1 : optLoop g [a, b, c] 1 = [c] := by
    rw [optLoop, dif_pos (by norm_num)]
    dsimp only
    by_cases hbc : canConnect g b c = true
    · have hs : scanJ g [a, b, c] 1 2 = 3 := by
        rw [scanJ]
        rw [dif_pos (by norm_num)]
        simp only [List.getD_cons_succ, List.getD_cons_zero]
        rw [if_pos hbc]
        rw [scanJ, dif_neg (by norm_num)]
      rw [hs]
      rw [dif_pos (by norm_num)]
      simp only [List.getD_cons_succ, List.getD_cons_zero]
      rw [hO2]
    · have hs : scanJ g [a, b, c] 1 2 = 2 := by
        rw [scanJ]
        rw [dif_pos (by norm_num)]
        simp only [List.getD_cons_succ, List.getD_cons_zero]
        rw [if_neg hbc]
      rw [hs]
      rw [dif_neg (by norm_num)]
      simp only [List.getD_cons_succ, List.getD_cons_zero]
      rw [hO2]
  have heq := optimizePath_eq g [a, b, c] (by norm_num)
  simp only [List.getD_cons_zero] at heq
  by_cases hab : canConnect g a b = true
  · by_cases hac : canConnect g a c = true
    · left
      rw [heq]
      have hs : scanJ g [a, b, c] 0 1 = 3 := by
        rw [scanJ, dif_pos (by norm_num)]
        simp only [List.getD_cons_succ, List.getD_cons_zero]
        rw [if_pos hab]
        rw [scanJ, dif_pos (by norm_num)]
        simp only [List.getD_cons_succ, List.getD_cons_zero]
        rw [if_pos hac]
        rw [scanJ, dif_neg (by norm_num)]
      rw [optLoop, dif_pos (by norm_num)]
      dsimp only
      rw [hs]
      rw [dif_pos (by norm_num)]
      simp only [List.getD_cons_succ, List.getD_cons_zero]
      rw [hO2]
    · right
      rw [heq]
      have hs : scanJ g [a, b, c] 0 1 = 2 := by
        rw [scanJ, dif_pos (by norm_num)]
        simp only [List.getD_cons_succ, List.getD_cons_zero]
        rw [if_pos hab]
        rw [scanJ, dif_pos (by norm_num)]
        simp only [List.getD_cons_succ, List.getD_cons_zero]
        rw [if_neg hac]
      rw [optLoop, dif_pos (by norm_num)]
      dsimp only
      rw [hs]
      rw [dif_pos (by norm_num)]
      simp only [List.getD_cons_succ, List.getD_cons_zero]
      rw [hO1]
  · right
    rw [heq]
    have hs : scanJ g [a, b, c] 0 1 = 1 := by
      rw [scanJ, dif_pos (by norm_num)]
      simp only [List.getD_cons_succ, List.getD_cons_zero]
      rw [if_neg hab]
    rw [optLoop, dif_pos (by norm_num)]
    dsimp only
    rw [hs]
    rw [dif_neg (by norm_num)]
    simp only [List.getD_cons_succ, List.getD_cons_zero]
    rw [hO1]

/-- C9 (amended): `optimize_path` is idempotent on paths of length at most
3 (over any grid).  From length 4 on it is not idempotent: see the
counterexample, where a second pass removes a waypoint the first pass
kept. -/
theorem c9_theorem :
    ∀ (g : Grid) (path : List Pt), path.length ≤ 3 →
      optimizePath g (optimizePath g path) = optimizePath g path := by
  intro g path hlen
  rcases path with _ | ⟨a, path⟩
  · rfl
  rcases path with _ | ⟨b, path⟩
  · rfl
  rcases path with _ | ⟨c, path⟩
  · rfl
  rcases path with _ | ⟨d, path⟩
  · rcases optLoop3 g a b c with h | h
    · rw [h]
      rfl
    · rw [h]
      exact h
  · simp at hlen

/-- The fuelled scan agrees with the scan once the fuel covers the
remaining indices. -/
theorem scanJF_eq (g : Grid) (path : List Pt) (i : Nat) :
    ∀ fuel j, path.length - j ≤ fuel → scanJF g path i fuel j = scanJ g path i j := by
  intro fuel
  induction fuel with
  | zero =>
    intro j hj
    rw [scanJF, scanJ, dif_neg (by omega)]
  | succ n ih =>
    intro j hj
    rw [scanJF]
    by_cases h : j < path.length
    · rw [if_pos h, scanJ, dif_pos h]
      by_cases hc : canConnect g (path.getD i ((0 : Int), (0 : Int)))
          (path.getD j ((0 : Int), (0 : Int))) = true
      · rw [if_pos hc, if_pos hc, ih (j + 1) (by omega)]
      · rw [if_neg hc, if_neg hc]
    · rw [if_neg h, scanJ, dif_neg h]

/-- The fuelled emission loop agrees with the loop once the fuel covers
the remaining indices. -/
theorem optLoopF_eq (g : Grid) (path : List Pt) :
    ∀ fuel i, path.length - 1 - i ≤ fuel → optLoopF g path fuel i = optLoop g path i := by
  intro fuel
  induction fuel with
  | zero =>
    intro i hi
    rw [optLoopF, optLoop, dif_neg (by omega)]
  | succ n ih =>
    intro i hi
    rw [optLoopF]
    by_cases h : i < path.length - 1
    · rw [if_pos h, optLoop, dif_pos h]
      dsimp only
      rw [scanJF_eq g path i path.length (i + 1) (by omega)]
      have hge : i + 1 ≤ scanJ g path i (i + 1) := scanJ_ge g path i (i + 1)
      by_cases h2 : i < scanJ g path i (i + 1) - 1
      · rw [if_pos h2, dif_pos h2, ih _ (by omega)]
      · rw [if_neg h2, dif_neg h2, ih _ (by omega)]
    · rw [if_neg h, optLoop, dif_neg h]

/-- `optimize_path` equals its fuelled, kernel-evaluable clone. -/
theorem optimizePathF_eq (g : Grid) (path : List Pt) :
    optimizePathF g path = optimizePath g path := by
  unfold optimizePathF optimizePath
  rw [optLoopF_eq g path path.length 0 (by omega)]

/-- C1, counterexample: on the 3×1 grid with an obstacle at `(1, 0)`,
`optimize_path` returns the input path unchanged, and the consecutive
output pair `(0,0), (1,0)` has no clear line of sight. -/
theorem c1_counterexample :
    optimizePath gridC1 pathC1 = pathC1 ∧
    pathC1 = [((0 : Int), (0 : Int)), (1, 0), (2, 0)] ∧
    canConnect gridC1 ((0 : Int), (0 : Int)) ((1 : Int), (0 : Int)) = false := by
  refine ⟨?_, by decide, by decide⟩
  rw [← optimizePathF_eq]
  decide

/-- C1 witness: a straight 3-point path on an all-FREE grid. -/
theorem c1_witness :
    (optimizePath gridFree [((0 : Int), (0 : Int)), (1, 0), (2, 0)]).head? =
        ([((0 : Int), (0 : Int)), (1, 0), (2, 0)] : List Pt).head? ∧
    (optimizePath gridFree [((0 : Int), (0 : Int)), (1, 0), (2, 0)]).getLast? =
        ([((0 : Int), (0 : Int)), (1, 0), (2, 0)] : List Pt).getLast? ∧
    List.Chain' (fun p q => canConnect gridFree p q = true)
        (optimizePath gridFree [((0 : Int), (0 : Int)), (1, 0), (2, 0)]) ∧
    (optimizePath gridFree [((0 : Int), (0 : Int)), (1, 0), (2, 0)]).length ≤
        ([((0 : Int), (0 : Int)), (1, 0), (2, 0)] : List Pt).length :=
  (c1_theorem gridFree [((0 : Int), (0 : Int)), (1, 0), (2, 0)]).2
    (by decide)
    (by
      intro m hm
      have h2 : m < 2 := by
        have := hm
        simp only [List.length_cons, List.length_nil] at this
        omega
      interval_cases m <;> decide)

/-- C9, counterexample: on the 5×3 grid with an obstacle at `(1, 1)`,
one simplification pass of the 4-point path `pathC9` keeps the waypoint
`(3, 1)` and a second pass removes it, so `optimize_path` is not
idempotent. -/
theorem c9_counterexample :
    optimizePath gridC9 (optimizePath gridC9 pathC9) ≠ optimizePath gridC9 pathC9 := by
  rw [← optimizePathF_eq, ← optimizePathF_eq]
  decide

/-- C9 witness: a 3-point diagonal path on an all-FREE grid. -/
theorem c9_witness :
    optimizePath gridFree (optimizePath gridFree [((0 : Int), (0 : Int)), (1, 1), (2, 2)]) =
      optimizePath gridFree [((0 : Int), (0 : Int)), (1, 1), (2, 2)] :=
  c9_theorem gridFree [((0 : Int), (0 : Int)), (1, 1), (2, 2)] (by decide)

/-! ### The frontier order and `heappop` -/

/-- The tuple order unfolded. -/
theorem entryLt_prop (a b : Entry) :
    entryLt a b = true ↔
      (a.1 < b.1 ∨ (a.1 = b.1 ∧ (a.2.1 < b.2.1 ∨ (a.2.1 = b.2.1 ∧ a.2.2 < b.2.2)))) := by
  simp [entryLt]

/-- The tuple order is irreflexive. -/
theorem entryLt_irrefl (a : Entry) : entryLt a a = false := by
  rw [← Bool.not_eq_true, entryLt_prop]
  omega

/-- Two entries neither of which is below the other are equal:
the tuple order is total. -/
theorem entryLt_antisymm {a b : Entry} (h1 : entryLt a b = false)
    (h2 : entryLt b a = false) : a = b := by
  rw [← Bool.not_eq_true, entryLt_prop] at h1 h2
  have hk : a.1 = b.1 ∧ a.2.1 = b.2.1 ∧ a.2.2 = b.2.2 := by omega
  obtain ⟨h3, h4, h5⟩ := hk
  exact Prod.ext_iff.mpr ⟨h3, Prod.ext_iff.mpr ⟨h4, h5⟩⟩

/-- `¬(a < b)` and `¬(b < c)` give `¬(a < c)` (the order is a total
preorder, so `not lt` is transitive in the reversed direction). -/
theorem entryLt_notLt_trans {a b c : Entry} (h1 : entryLt a b = false)
    (h2 : entryLt b c = false) : entryLt a c = false := by
  rw [← Bool.not_eq_true, entryLt_prop] at h1 h2 ⊢
  omega

/-- The running minimum is one of the scanned entries. -/
theorem minEntry_mem (l : List Entry) : ∀ e : Entry, minEntry e l ∈ e :: l := by
  induction l with
  | nil => intro e; simp [minEntry]
  | cons x t ih =>
    intro e
    have key : minEntry e (x :: t) = minEntry (if entryLt x e then x else e) t := rfl
    rw [key]
    rcases List.mem_cons.mp (ih (if entryLt x e then x else e)) with h | h
    · rw [h]
      split <;> simp
    · simp [List.mem_cons, h]

/-- No scanned entry is strictly below the running minimum. -/
theorem minEntry_min (l : List Entry) :
    ∀ e : Entry, ∀ a ∈ e :: l, entryLt a (minEntry e l) = false := by
  induction l with
  | nil =>
    intro e a ha
    rw [List.mem_singleton.mp ha]
    simp [minEntry, entryLt_irrefl]
  | cons x t ih =>
    intro e a ha
    have key : minEntry e (x :: t) = minEntry (if entryLt x e then x else e) t := rfl
    rw [key]
    have hmin := ih (if entryLt x e then x else e)
    have hbase : entryLt (if entryLt x e then x else e)
        (minEntry (if entryLt x e then x else e) t) = false :=
      hmin _ (List.mem_cons_self _ _)
    rcases List.mem_cons.mp ha with h | h
    · subst h
      by_cases hxe : entryLt x a = true
      · rw [if_pos hxe] at hbase ⊢
        by_contra hcon
        rw [Bool.not_eq_false] at hcon
        rw [entryLt_prop] at hxe hcon
        rw [← Bool.not_eq_true, entryLt_prop] at hbase
        omega
      · rw [Bool.not_eq_true] at hxe
        rw [if_neg (by simp [hxe])] at hbase ⊢
        exact hbase
    · rcases List.mem_cons.mp h with h1 | h1
      · subst h1
        by_cases hxe : entryLt a e = true
        · rw [if_pos hxe] at hbase ⊢
          exact hbase
        · rw [Bool.not_eq_true] at hxe
          rw [if_neg (by simp [hxe])] at hbase ⊢
          exact entryLt_notLt_trans hxe hbase
      · exact hmin a (List.mem_cons_of_mem _ h1)

/-- `popMin` returns `none` exactly on the empty frontier. -/
theorem popMin_none_iff (l : List Entry) : popMin l = none ↔ l = [] := by
  rcases l with _ | ⟨e, rest⟩ <;> simp [popMin]

/-- Specification of `heappop`: the returned entry is a member below no
other member, and the rest is the frontier with one occurrence of that
value removed. -/
theorem popMin_some {l : List Entry} {e : Entry} {rest : List Entry}
    (h : popMin l = some (e, rest)) :
    e ∈ l ∧ (∀ a ∈ l, entryLt a e = false) ∧ rest = l.erase e := by
  rcases l with _ | ⟨x, t⟩
  · simp [popMin] at h
  · simp only [popMin, Option.some.injEq, Prod.mk.injEq] at h
    obtain ⟨he, hrest⟩ := h
    subst he
    exact ⟨minEntry_mem t x, minEntry_min t x, hrest.symm⟩

/-! ### The relaxation step -/

/-- Generic preservation through a `foldl`. -/
theorem foldl_preserve {α β : Type} (P : α → Prop) (f : α → β → α) :
    ∀ (l : List β), (∀ a b, b ∈ l → P a → P (f a b)) → ∀ a, P a → P (l.foldl f a) := by
  intro l
  induction l with
  | nil => intro _ a ha; exact ha
  | cons x t ih =>
    intro hstep a ha
    rw [List.foldl_cons]
    exact ih (fun a b hb => hstep a b (List.mem_cons_of_mem _ hb)) _
      (hstep a x (List.mem_cons_self _ _) ha)

/-- A neighbour is never the expanded cell itself. -/
theorem neighbors_ne {g : Grid} {p n : Pt} (h : n ∈ neighbors g p) : n ≠ p := by
  obtain ⟨⟨d, hd, rfl⟩, -⟩ := mem_neighbors_elim h
  fin_cases hd <;> simp [Prod.ext_iff]

/-- Neighbours are free cells. -/
theorem neighbors_free {g : Grid} {p n : Pt} (h : n ∈ neighbors g p) :
    g.freeAt n.1 n.2 = true :=
  (mem_neighbors_elim h).2

/-- Membership in the cell enumeration is exactly the bounds check. -/
theorem mem_allCells_iff (g : Grid) (p : Pt) :
    p ∈ allCells g ↔ g.inB p.1 p.2 = true := by
  unfold allCells Grid.inB
  simp only [List.mem_flatMap, List.mem_map, List.mem_range, Bool.and_eq_true,
    decide_eq_true_eq]
  constructor
  · rintro ⟨y, hy, x, hx, rfl⟩
    refine ⟨⟨⟨?_, ?_⟩, ?_⟩, ?_⟩ <;> dsimp only <;> omega
  · rintro ⟨⟨⟨h1, h2⟩, h3⟩, h4⟩
    refine ⟨p.2.toNat, by omega, p.1.toNat, by omega, ?_⟩
    rw [Prod.ext_iff]
    dsimp only
    omega

/-- Free cells are in the domain enumeration. -/
theorem free_mem_domainPts {g : Grid} {s n : Pt} (h : g.freeAt n.1 n.2 = true) :
    n ∈ domainPts g s := by
  have : n ∈ allCells g := by
    rw [mem_allCells_iff]
    unfold Grid.freeAt at h
    rw [Bool.and_eq_true] at h
    exact h.1
  unfold domainPts
  split
  · exact this
  · exact List.mem_cons_of_mem _ this

/-- The start point is in the domain enumeration. -/
theorem start_mem_domainPts (g : Grid) (s : Pt) : s ∈ domainPts g s := by
  unfold domainPts
  split
  · assumption
  · exact List.mem_cons_self _ _

/-- Case analysis on one relaxation: either nothing changes (the neighbour
already has a no-worse score), or the neighbour's score, parent and a
frontier entry are written. -/
theorem relaxOne_cases (goal cur : Pt) (st : AState) (n : Pt) :
    (relaxOne goal cur st n = st ∧
      ∃ gn, st.gS n = some gn ∧ gn ≤ (st.gS cur).getD 0 + moveCostS cur n) ∨
    ((∀ gn, st.gS n = some gn → (st.gS cur).getD 0 + moveCostS cur n < gn) ∧
      relaxOne goal cur st n =
        { heap := ((st.gS cur).getD 0 + moveCostS cur n + heuristicS n goal, n) :: st.heap,
          gS := fun p => if p = n then some ((st.gS cur).getD 0 + moveCostS cur n) else st.gS p,
          fS := fun p => if p = n then
              some ((st.gS cur).getD 0 + moveCostS cur n + heuristicS n goal) else st.fS p,
          came := fun p => if p = n then some cur else st.came p }) := by
  unfold relaxOne
  rcases hg : st.gS n with _ | gn
  · right
    exact ⟨fun gn hgn => absurd hgn (by simp), rfl⟩
  · dsimp only
    by_cases hlt : (st.gS cur).getD 0 + moveCostS cur n < gn
    · right
      rw [if_pos hlt]
      refine ⟨fun gn' hgn' => ?_, rfl⟩
      obtain rfl : gn = gn' := Option.some.inj hgn'
      exact hlt
    · left
      rw [if_neg hlt]
      exact ⟨rfl, gn, rfl, by omega⟩

/-- One relaxation never erases a score. -/
theorem relaxOne_mono (goal cur : Pt) (st : AState) (n p : Pt)
    (h : (st.gS p).isSome) : ((relaxOne goal cur st n).gS p).isSome := by
  rcases relaxOne_cases goal cur st n with ⟨heq, -⟩ | ⟨-, heq⟩ <;> rw [heq]
  · exact h
  · dsimp only
    split
    · rfl
    · exact h

/-- One relaxation leaves other points' score and parent untouched. -/
theorem relaxOne_not_mem (goal cur : Pt) (st : AState) (n p : Pt) (h : p ≠ n) :
    (relaxOne goal cur st n).gS p = st.gS p ∧
    (relaxOne goal cur st n).came p = st.came p := by
  rcases relaxOne_cases goal cur st n with ⟨heq, -⟩ | ⟨-, heq⟩ <;> rw [heq]
  · exact ⟨rfl, rfl⟩
  · exact ⟨by dsimp only; rw [if_neg h], by dsimp only; rw [if_neg h]⟩

/-- After one relaxation the relaxed neighbour has a score. -/
theorem relaxOne_sets (goal cur : Pt) (st : AState) (n : Pt) :
    ((relaxOne goal cur st n).gS n).isSome := by
  rcases relaxOne_cases goal cur st n with ⟨heq, gn, hgn, -⟩ | ⟨-, heq⟩ <;> rw [heq]
  · rw [hgn]; rfl
  · simp

/-- The whole relaxation loop never erases a score. -/
theorem relaxAll_mono (g : Grid) (goal cur : Pt) (st : AState) (p : Pt)
    (h : (st.gS p).isSome) : ((relaxAll g goal cur st).gS p).isSome := by
  unfold relaxAll
  exact foldl_preserve (fun s => (s.gS p).isSome) _ _
    (fun a b _ ha => relaxOne_mono goal cur a b p ha) st h

/-- After the relaxation loop every free in-bounds neighbour of the
expanded cell has a score. -/
theorem relaxAll_sets (g : Grid) (goal cur : Pt) (st : AState) :
    ∀ n ∈ neighbors g cur, ((relaxAll g goal cur st).gS n).isSome := by
  unfold relaxAll
  have main : ∀ (L : List Pt) (st : AState) (n : Pt), n ∈ L →
      ((L.foldl (relaxOne goal cur) st).gS n).isSome := by
    intro L
    induction L with
    | nil => intro st n hn; simp at hn
    | cons x t ih =>
      intro st n hn
      rw [List.foldl_cons]
      rcases List.mem_cons.mp hn with h | h
      · subst h
        exact foldl_preserve (fun s => (s.gS n).isSome) _ _
          (fun a b _ ha => relaxOne_mono goal cur a b n ha) _
          (relaxOne_sets goal cur st n)
      · exact ih _ n h
  intro n hn
  exact main _ st n hn

/-- Points that are not neighbours of the expanded cell keep their score
and parent through the relaxation loop. -/
theorem relaxAll_not_mem (g : Grid) (goal cur : Pt) (st : AState) (p : Pt)
    (h : p ∉ neighbors g cur) :
    (relaxAll g goal cur st).gS p = st.gS p ∧
    (relaxAll g goal cur st).came p = st.came p := by
  unfold relaxAll
  exact foldl_preserve (fun s => s.gS p = st.gS p ∧ s.came p = st.came p) _ _
    (fun a b hb ⟨h1, h2⟩ => by
      have hne : p ≠ b := fun hc => h (hc ▸ hb)
      obtain ⟨h3, h4⟩ := relaxOne_not_mem goal cur a b p hne
      exact ⟨h3.trans h1, h4.trans h2⟩) st ⟨rfl, rfl⟩

/-- The frontier after the relaxation loop is the old frontier with some
entries for relaxed neighbours pushed on top. -/
theorem relaxAll_heap (g : Grid) (goal cur : Pt) (st : AState) :
    ∃ push : List Entry, (relaxAll g goal cur st).heap = push ++ st.heap ∧
      ∀ e ∈ push, e.2 ∈ neighbors g cur := by
  unfold relaxAll
  have main : ∀ (L : List Pt), (∀ b ∈ L, b ∈ neighbors g cur) → ∀ (st : AState),
      ∃ push : List Entry, (L.foldl (relaxOne goal cur) st).heap = push ++ st.heap ∧
        ∀ e ∈ push, e.2 ∈ neighbors g cur := by
    intro L
    induction L with
    | nil => intro _ st; exact ⟨[], rfl, by simp⟩
    | cons x t ih =>
      intro hL st
      rw [List.foldl_cons]
      obtain ⟨push, hpush, hmem⟩ := ih (fun b hb => hL b (List.mem_cons_of_mem _ hb))
        (relaxOne goal cur st x)
      rcases relaxOne_cases goal cur st x with ⟨heq, -⟩ | ⟨-, heq⟩
      · exact ⟨push, by rw [hpush, heq], hmem⟩
      · refine ⟨push ++ [((st.gS cur).getD 0 + moveCostS cur x + heuristicS x goal, x)],
          ?_, ?_⟩
        · rw [hpush, heq]
          simp
        · intro e he
          rcases List.mem_append.mp he with h | h
          · exact hmem e h
          · rw [List.mem_singleton.mp h]
            exact hL x (List.mem_cons_self _ _)
  exact main _ (fun b hb => hb) st

/-- One relaxation of a free neighbour preserves the soundness invariant. -/
theorem relaxOne_SInv (g : Grid) (start goal cur : Pt) (st : AState) (n : Pt)
    (hs : SInv g start st) (hcur : (st.gS cur).isSome)
    (hfree : g.freeAt n.1 n.2 = true) (hcn : n ≠ cur) :
    SInv g start (relaxOne goal cur st n) := by
  rcases relaxOne_cases goal cur st n with ⟨heq, -⟩ | ⟨hlt, heq⟩
  · rw [heq]; exact hs
  · have hns : n ≠ start := by
      intro hc
      subst hc
      have := hlt 0 hs.gstart
      have := moveCostS_pos cur n
      omega
    rw [heq]
    constructor
    · dsimp only
      rw [if_neg (Ne.symm hns)]
      exact hs.gstart
    · dsimp only
      rw [if_neg (Ne.symm hns)]
      exact hs.cstart
    · intro p hp hsome
      dsimp only at hsome ⊢
      by_cases hpn : p = n
      · subst hpn; exact hfree
      · rw [if_neg hpn] at hsome
        exact hs.keyFree p hp hsome
    · intro p hp hsome
      dsimp only at hsome ⊢
      by_cases hpn : p = n
      · rw [if_pos hpn]; rfl
      · rw [if_neg hpn] at hsome ⊢
        exact hs.keyCame p hp hsome
    · intro p q hpq
      dsimp only at hpq ⊢
      by_cases hpn : p = n
      · rw [if_pos hpn] at hpq
        cases hpq
        rw [if_pos hpn]
        refine ⟨rfl, ?_⟩
        rw [if_neg (Ne.symm hcn)]
        exact hcur
      · rw [if_neg hpn] at hpq
        obtain ⟨h1, h2⟩ := hs.cameKeys p q hpq
        rw [if_neg hpn]
        refine ⟨h1, ?_⟩
        by_cases hqn : q = n
        · rw [if_pos hqn]; rfl
        · rw [if_neg hqn]; exact h2
    · intro p q hpq
      dsimp only at hpq ⊢
      by_cases hpn : p = n
      · rw [if_pos hpn] at hpq
        cases hpq
        rw [if_pos hpn, if_neg (Ne.symm hcn)]
        have := moveCostS_pos cur n
        simp only [Option.getD_some]
        omega
      · rw [if_neg hpn] at hpq
        have hold := hs.cameLt p q hpq
        rw [if_neg hpn]
        by_cases hqn : q = n
        · subst hqn
          rw [if_pos rfl]
          obtain ⟨-, hq⟩ := hs.cameKeys p q hpq
          rcases hgq : st.gS q with _ | gq
          · rw [hgq] at hq; simp at hq
          · have := hlt gq hgq
            rw [hgq] at hold
            simp only [Option.getD_some] at hold ⊢
            omega
        · rw [if_neg hqn]
          exact hold
    · intro e he
      dsimp only at he ⊢
      rcases List.mem_cons.mp he with h | h
      · rw [h]
        simp
      · by_cases hen : e.2 = n
        · rw [if_pos hen]; rfl
        · rw [if_neg hen]
          exact hs.heapKeys e h

/-- The relaxation loop preserves the soundness invariant. -/
theorem relaxAll_SInv (g : Grid) (start goal cur : Pt) (st : AState)
    (hs : SInv g start st) (hcur : (st.gS cur).isSome) :
    SInv g start (relaxAll g goal cur st) := by
  unfold relaxAll
  have h := foldl_preserve (fun s => SInv g start s ∧ s.gS cur = st.gS cur) _
    (neighbors g cur)
    (fun a b hb ⟨h1, h2⟩ => by
      have hbc : b ≠ cur := neighbors_ne hb
      refine ⟨relaxOne_SInv g start goal cur a b h1 (by rw [h2]; exact hcur)
        (neighbors_free hb) hbc, ?_⟩
      rw [(relaxOne_not_mem goal cur a b cur (Ne.symm hbc)).1, h2])
    st ⟨hs, rfl⟩
  exact h.1

/-! ### Soundness of the search -/

/-- Walking the parent links from any scored point terminates within
`g_score` steps (scores strictly decrease along parents) and yields a
chain of scored, free, non-start points ending at the point walked from. -/
theorem reconstructAux_spec (g : Grid) (start : Pt) (st : AState)
    (hs : SInv g start st) :
    ∀ (fuel : Nat) (cur : Pt) (acc : List Pt),
      (st.gS cur).isSome → (st.gS cur).getD 0 < fuel →
      ∃ chain : List Pt,
        reconstructAux st.came fuel cur acc = chain ++ acc ∧
        (∀ p ∈ chain, (st.gS p).isSome ∧ p ≠ start ∧ g.freeAt p.1 p.2 = true) ∧
        (chain = [] → st.came cur = none) ∧
        (chain ≠ [] → chain.getLast? = some cur) := by
  intro fuel
  induction fuel with
  | zero =>
    intro cur acc hcur hfuel
    omega
  | succ n ih =>
    intro cur acc hcur hfuel
    rcases hcame : st.came cur with _ | p
    · refine ⟨[], ?_, by simp, fun _ => rfl, by simp⟩
      rw [reconstructAux, hcame]
      rfl
    · have hcs : cur ≠ start := by
        intro hc
        rw [hc, hs.cstart] at hcame
        cases hcame
      obtain ⟨hgc, hgp⟩ := hs.cameKeys cur p hcame
      have hlt := hs.cameLt cur p hcame
      obtain ⟨chain, hch, hmem, -, hlast⟩ := ih p (cur :: acc) hgp (by omega)
      refine ⟨chain ++ [cur], ?_, ?_, by simp, ?_⟩
      · rw [reconstructAux, hcame]
        dsimp only
        rw [hch]
        simp
      · intro q hq
        rcases List.mem_append.mp hq with h | h
        · exact hmem q h
        · rw [List.mem_singleton.mp h]
          exact ⟨hgc, hcs, hs.keyFree cur hcs hgc⟩
      · intro _
        simp

/-- The reconstructed path is nonempty, begins at `start`, ends at `goal`
and visits only `start` and free cells. -/
theorem reconstructPath_spec (g : Grid) (start goal : Pt) (st : AState)
    (hs : SInv g start st) (hgoal : (st.gS goal).isSome) :
    reconstructPath st.came start goal ((st.gS goal).getD 0 + 1) ≠ [] ∧
    (reconstructPath st.came start goal ((st.gS goal).getD 0 + 1)).head? = some start ∧
    (reconstructPath st.came start goal ((st.gS goal).getD 0 + 1)).getLast? = some goal ∧
    ∀ p ∈ reconstructPath st.came start goal ((st.gS goal).getD 0 + 1),
      p = start ∨ g.freeAt p.1 p.2 = true := by
  obtain ⟨chain, hch, hmem, hnil, hlast⟩ :=
    reconstructAux_spec g start st hs ((st.gS goal).getD 0 + 1) goal [] hgoal (by omega)
  rw [List.append_nil] at hch
  unfold reconstructPath
  rw [hch]
  rcases hc : chain with _ | ⟨z, t⟩
  · subst hc
    have hgs : goal = start := by
      by_contra hne
      have := hs.keyCame goal hne hgoal
      rw [hnil rfl] at this
      simp at this
    exact ⟨by simp, by simp, by rw [hgs]; rfl, by simp [hgs]⟩
  · rw [← hc]
    have hchne : chain ≠ [] := by rw [hc]; simp
    refine ⟨by simp, by simp, ?_, ?_⟩
    · rw [hc, List.getLast?_cons_cons, ← hc]
      exact hlast hchne
    · intro p hp
      rcases List.mem_cons.mp hp with h | h
      · exact Or.inl h
      · exact Or.inr (hmem p h).2.2

/-- The soundness invariant holds for the initial search state. -/
theorem SInv_init (g : Grid) (start goal : Pt) : SInv g start (aStarInit start goal) := by
  constructor
  · simp [aStarInit]
  · rfl
  · intro p hp hsome
    simp only [aStarInit, if_neg hp] at hsome
    cases hsome
  · intro p hp hsome
    simp only [aStarInit, if_neg hp] at hsome
    cases hsome
  · intro p q hpq
    cases hpq
  · intro p q hpq
    cases hpq
  · intro e he
    rw [List.mem_singleton.mp he]
    simp [aStarInit]

/-- Soundness of the search loop: any returned path is empty or runs from
`start` to `goal` through `start` and free cells only. -/
theorem aStarLoop_sound (g : Grid) (start goal : Pt) :
    ∀ (fuel : Nat) (st : AState), SInv g start st →
      aStarLoop g start goal fuel st = [] ∨
      ((aStarLoop g start goal fuel st).head? = some start ∧
       (aStarLoop g start goal fuel st).getLast? = some goal ∧
       ∀ p ∈ aStarLoop g start goal fuel st, p = start ∨ g.freeAt p.1 p.2 = true) := by
  intro fuel
  induction fuel with
  | zero => intro st _; exact Or.inl rfl
  | succ n ih =>
    intro st hs
    rcases hpop : popMin st.heap with _ | ⟨e, rest⟩
    · left
      rw [aStarLoop, hpop]
    · obtain ⟨hmem, hmin, hrest⟩ := popMin_some hpop
      by_cases hgoal : e.2 = goal
      · right
        rw [aStarLoop, hpop]
        dsimp only
        rw [if_pos hgoal]
        have hgs : (st.gS goal).isSome := hgoal ▸ hs.heapKeys e hmem
        obtain ⟨h1, h2, h3, h4⟩ := reconstructPath_spec g start goal st hs hgs
        rw [hgoal]
        exact ⟨h2, h3, h4⟩
      · have hs2 : SInv g start (relaxAll g goal e.2 { st with heap := rest }) := by
          refine relaxAll_SInv g start goal e.2 _ ?_ (hs.heapKeys e hmem)
          exact ⟨hs.gstart, hs.cstart, hs.keyFree, hs.keyCame, hs.cameKeys, hs.cameLt,
            fun e' he' => hs.heapKeys e' (by
              rw [hrest] at he'
              exact List.mem_of_mem_erase he')⟩
        have := ih _ hs2
        rw [aStarLoop, hpop]
        dsimp only
        rw [if_neg hgoal]
        exact this

/-- Soundness of `a_star`. -/
theorem aStar_sound (g : Grid) (s t : Pt) :
    aStar g s t = [] ∨
    ((aStar g s t).head? = some s ∧ (aStar g s t).getLast? = some t ∧
     ∀ p ∈ aStar g s t, p = s ∨ g.freeAt p.1 p.2 = true) :=
  aStarLoop_sound g s t (aStarFuel g s) (aStarInit s t) (SInv_init g s t)

/-! ### The elbow candidates -/

/-- The inclusive range is nonempty, starts at `a` and ends at `b`. -/
theorem rangeIncl_spec (a b : Int) :
    rangeIncl a b ≠ [] ∧ (rangeIncl a b).head? = some a ∧
    (rangeIncl a b).getLast? = some b := by
  unfold rangeIncl
  by_cases hab : a ≤ b
  · rw [if_pos hab]
    have hn : (b - a + 1).toNat = (b - a).toNat + 1 := by omega
    rw [hn]
    refine ⟨List.length_pos.mp (by simp), ?_, ?_⟩
    · rw [List.head?_map, List.range_succ_eq_map]
      simp
    · rw [List.getLast?_map, List.range_succ, List.getLast?_concat, Option.map_some']
      congr 1
      omega
  · rw [if_neg hab]
    have hn : (a - b + 1).toNat = (a - b).toNat + 1 := by omega
    rw [hn]
    refine ⟨List.length_pos.mp (by simp), ?_, ?_⟩
    · rw [List.head?_map, List.range_succ_eq_map]
      simp
    · rw [List.getLast?_map, List.range_succ, List.getLast?_concat, Option.map_some']
      congr 1
      omega

/-- A validated horizontal-first candidate is nonempty, runs from `s` to
`e`, and touches only `s` itself and unblocked cells. -/
theorem hFirst_spec (g : Grid) (s e : Pt) (l : List Pt)
    (h : routeHorizontalFirst g s e = some l) :
    l ≠ [] ∧ l.head? = some s ∧ l.getLast? = some e ∧
    ∀ p ∈ l, p = s ∨ g.blockedAt p.1 p.2 = false := by
  unfold routeHorizontalFirst at h
  by_cases hx : s.1 = e.1
  all_goals by_cases hy : s.2 = e.2
  · -- degenerate: s and e are the same cell
    simp only [if_neg (by omega : ¬s.1 ≠ e.1), if_neg (by omega : ¬s.2 ≠ e.2)] at h
    cases h
    have he : ((s.1, s.2) : Pt) = e := Prod.ext_iff.mpr ⟨hx, hy⟩
    refine ⟨by simp, by simp, ?_, ?_⟩
    · rw [he]
      simp
    · intro p hp
      simp only [List.append_nil, List.mem_singleton] at hp
      exact Or.inl hp
  · -- same column: unchecked start cell plus the checked vertical leg
    simp only [if_neg (by omega : ¬s.1 ≠ e.1), if_pos (by omega : s.2 ≠ e.2)] at h
    rcases hall : ((rangeIncl (s.2 + if e.2 > s.2 then 1 else -1) e.2).map
        (fun y => ((e.1, y) : Pt))).all (fun p => !g.blockedAt p.1 p.2) with _ | _
    · rw [hall] at h
      simp at h
    · rw [hall] at h
      simp only [if_pos trivial] at h
      cases h
      obtain ⟨hne, hhead, hlast⟩ := rangeIncl_spec (s.2 + if e.2 > s.2 then 1 else -1) e.2
      have hmapne : ((rangeIncl (s.2 + if e.2 > s.2 then 1 else -1) e.2).map
          (fun y => ((e.1, y) : Pt))) ≠ [] := by simpa using hne
      refine ⟨by simp, by simp, ?_, ?_⟩
      · rw [List.getLast?_append_of_ne_nil _ hmapne, List.getLast?_map, hlast,
          Option.map_some']
      · intro p hp
        rcases List.mem_append.mp hp with h1 | h1
        · exact Or.inl (List.mem_singleton.mp h1)
        · right
          have := List.all_eq_true.mp hall _ h1
          simpa using this
  · -- same row: checked horizontal leg only
    simp only [if_pos (by omega : s.1 ≠ e.1), if_neg (by omega : ¬s.2 ≠ e.2)] at h
    rcases hall : ((rangeIncl s.1 e.1).map (fun x => ((x, s.2) : Pt))).all
        (fun p => !g.blockedAt p.1 p.2) with _ | _
    · rw [hall] at h
      simp at h
    · rw [hall] at h
      simp only [if_pos trivial] at h
      cases h
      obtain ⟨hne, hhead, hlast⟩ := rangeIncl_spec s.1 e.1
      have hmapne : ((rangeIncl s.1 e.1).map (fun x => ((x, s.2) : Pt))) ≠ [] := by
        simpa using hne
      refine ⟨by simpa using hmapne, ?_, ?_, ?_⟩
      · rw [List.append_nil, List.head?_map, hhead, Option.map_some']
      · rw [List.append_nil, List.getLast?_map, hlast, Option.map_some']
        congr 1
        exact Prod.ext_iff.mpr ⟨rfl, hy⟩
      · intro p hp
        rw [List.append_nil] at hp
        right
        have := List.all_eq_true.mp hall _ hp
        simpa using this
  · -- both legs checked
    simp only [if_pos (by omega : s.1 ≠ e.1), if_pos (by omega : s.2 ≠ e.2)] at h
    rcases hall1 : ((rangeIncl s.1 e.1).map (fun x => ((x, s.2) : Pt))).all
        (fun p => !g.blockedAt p.1 p.2) with _ | _
    · rw [hall1] at h
      simp at h
    · rw [hall1] at h
      rcases hall2 : ((rangeIncl (s.2 + if e.2 > s.2 then 1 else -1) e.2).map
          (fun y => ((e.1, y) : Pt))).all (fun p => !g.blockedAt p.1 p.2) with _ | _
      · rw [hall2] at h
        simp at h
      · rw [hall2] at h
        simp only [if_pos trivial] at h
        cases h
        obtain ⟨hne1, hhead1, hlast1⟩ := rangeIncl_spec s.1 e.1
        obtain ⟨hne2, hhead2, hlast2⟩ :=
          rangeIncl_spec (s.2 + if e.2 > s.2 then 1 else -1) e.2
        have hmapne1 : ((rangeIncl s.1 e.1).map (fun x => ((x, s.2) : Pt))) ≠ [] := by
          simpa using hne1
        have hmapne2 : ((rangeIncl (s.2 + if e.2 > s.2 then 1 else -1) e.2).map
            (fun y => ((e.1, y) : Pt))) ≠ [] := by simpa using hne2
        refine ⟨by simp [hmapne1], ?_, ?_, ?_⟩
        · rw [List.head?_append, List.head?_map, hhead1]
          rfl
        · rw [List.getLast?_append_of_ne_nil _ hmapne2, List.getLast?_map, hlast2,
            Option.map_some']
        · intro p hp
          right
          rcases List.mem_append.mp hp with h1 | h1
          · have := List.all_eq_true.mp hall1 _ h1
            simpa using this
          · have := List.all_eq_true.mp hall2 _ h1
            simpa using this

/-- A validated vertical-first candidate is nonempty, runs from `s` to
`e`, and touches only `s` itself and unblocked cells. -/
theorem vFirst_spec (g : Grid) (s e : Pt) (l : List Pt)
    (h : routeVerticalFirst g s e = some l) :
    l ≠ [] ∧ l.head? = some s ∧ l.getLast? = some e ∧
    ∀ p ∈ l, p = s ∨ g.blockedAt p.1 p.2 = false := by
  unfold routeVerticalFirst at h
  by_cases hy : s.2 = e.2
  all_goals by_cases hx : s.1 = e.1
  · -- degenerate: s and e are the same cell
    simp only [if_neg (by omega : ¬s.2 ≠ e.2), if_neg (by omega : ¬s.1 ≠ e.1)] at h
    cases h
    have he : ((s.1, s.2) : Pt) = e := Prod.ext_iff.mpr ⟨hx, hy⟩
    refine ⟨by simp, by simp, ?_, ?_⟩
    · rw [he]
      simp
    · intro p hp
      simp only [List.append_nil, List.mem_singleton] at hp
      exact Or.inl hp
  · -- same row: unchecked start cell plus the checked horizontal leg
    simp only [if_neg (by omega : ¬s.2 ≠ e.2), if_pos (by omega : s.1 ≠ e.1)] at h
    rcases hall : ((rangeIncl (s.1 + if e.1 > s.1 then 1 else -1) e.1).map
        (fun x => ((x, e.2) : Pt))).all (fun p => !g.blockedAt p.1 p.2) with _ | _
    · rw [hall] at h
      simp at h
    · rw [hall] at h
      simp only [if_pos trivial] at h
      cases h
      obtain ⟨hne, hhead, hlast⟩ := rangeIncl_spec (s.1 + if e.1 > s.1 then 1 else -1) e.1
      have hmapne : ((rangeIncl (s.1 + if e.1 > s.1 then 1 else -1) e.1).map
          (fun x => ((x, e.2) : Pt))) ≠ [] := by simpa using hne
      refine ⟨by simp, by simp, ?_, ?_⟩
      · rw [List.getLast?_append_of_ne_nil _ hmapne, List.getLast?_map, hlast,
          Option.map_some']
      · intro p hp
        rcases List.mem_append.mp hp with h1 | h1
        · exact Or.inl (List.mem_singleton.mp h1)
        · right
          have := List.all_eq_true.mp hall _ h1
          simpa using this
  · -- same column: checked vertical leg only
    simp only [if_pos (by omega : s.2 ≠ e.2), if_neg (by omega : ¬s.1 ≠ e.1)] at h
    rcases hall : ((rangeIncl s.2 e.2).map (fun y => ((s.1, y) : Pt))).all
        (fun p => !g.blockedAt p.1 p.2) with _ | _
    · rw [hall] at h
      simp at h
    · rw [hall] at h
      simp only [if_pos trivial] at h
      cases h
      obtain ⟨hne, hhead, hlast⟩ := rangeIncl_spec s.2 e.2
      have hmapne : ((rangeIncl s.2 e.2).map (fun y => ((s.1, y) : Pt))) ≠ [] := by
        simpa using hne
      refine ⟨by simpa using hmapne, ?_, ?_, ?_⟩
      · rw [List.append_nil, List.head?_map, hhead, Option.map_some']
      · rw [List.append_nil, List.getLast?_map, hlast, Option.map_some']
        congr 1
        exact Prod.ext_iff.mpr ⟨hx, rfl⟩
      · intro p hp
        rw [List.append_nil] at hp
        right
        have := List.all_eq_true.mp hall _ hp
        simpa using this
  · -- both legs checked
    simp only [if_pos (by omega : s.2 ≠ e.2), if_pos (by omega : s.1 ≠ e.1)] at h
    rcases hall1 : ((rangeIncl s.2 e.2).map (fun y => ((s.1, y) : Pt))).all
        (fun p => !g.blockedAt p.1 p.2) with _ | _
    · rw [hall1] at h
      simp at h
    · rw [hall1] at h
      rcases hall2 : ((rangeIncl (s.1 + if e.1 > s.1 then 1 else -1) e.1).map
          (fun x => ((x, e.2) : Pt))).all (fun p => !g.blockedAt p.1 p.2) with _ | _
      · rw [hall2] at h
        simp at h
      · rw [hall2] at h
        simp only [if_pos trivial] at h
        cases h
        obtain ⟨hne1, hhead1, hlast1⟩ := rangeIncl_spec s.2 e.2
        obtain ⟨hne2, hhead2, hlast2⟩ :=
          rangeIncl_spec (s.1 + if e.1 > s.1 then 1 else -1) e.1
        have hmapne1 : ((rangeIncl s.2 e.2).map (fun y => ((s.1, y) : Pt))) ≠ [] := by
          simpa using hne1
        have hmapne2 : ((rangeIncl (s.1 + if e.1 > s.1 then 1 else -1) e.1).map
            (fun x => ((x, e.2) : Pt))) ≠ [] := by simpa using hne2
        refine ⟨by simp [hmapne1], ?_, ?_, ?_⟩
        · rw [List.head?_append, List.head?_map, hhead1]
          rfl
        · rw [List.getLast?_append_of_ne_nil _ hmapne2, List.getLast?_map, hlast2,
            Option.map_some']
        · intro p hp
          right
          rcases List.mem_append.mp hp with h1 | h1
          · have := List.all_eq_true.mp hall1 _ h1
            simpa using this
          · have := List.all_eq_true.mp hall2 _ h1
            simpa using this

/-- C3, counterexample: with start = goal on an obstacle cell, both
candidate builders append the start cell without checking it, so
`manhattan_routing` returns a path on a cell marked OBSTACLE. -/
theorem c3_counterexample :
    manhattanRouting gridC3 ((0 : Int), (0 : Int)) ((0 : Int), (0 : Int)) =
      [((0 : Int), (0 : Int))] ∧
    gridC3.cell 0 0 = true := by
  exact ⟨by decide, rfl⟩

/-- C3 (amended): provided the start cell is in bounds and FREE, every
point of `manhattan_routing(start, goal)` lies on an in-bounds FREE cell
(each candidate leg is validated cell by cell and rejected whole on the
first blocked cell — the one unchecked cell either builder can emit is the
start itself, and the A* fallback can likewise only emit free cells and
the start). -/
theorem c3_theorem :
    ∀ (g : Grid) (s t : Pt), g.freeAt s.1 s.2 = true →
      ∀ p ∈ manhattanRouting g s t, g.freeAt p.1 p.2 = true := by
  intro g s t hfree p hp
  unfold manhattanRouting at hp
  have hcand : ∀ (l : List Pt), (∀ q ∈ l, q = s ∨ g.blockedAt q.1 q.2 = false) →
      p ∈ l → g.freeAt p.1 p.2 = true := by
    intro l hl hpl
    rcases hl p hpl with h | h
    · rw [h]
      exact hfree
    · rw [Grid.freeAt_eq_not_blockedAt, h]
      rfl
  rcases hh : routeHorizontalFirst g s t with _ | r1
  all_goals rcases hv : routeVerticalFirst g s t with _ | r2
  all_goals rw [hh, hv] at hp
  · -- both candidates failed: the internal A* fallback
    rcases aStar_sound g s t with hnil | ⟨-, -, hmem⟩
    · rw [hnil] at hp
      cases hp
    · rcases hmem p hp with h | h
      · rw [h]
        exact hfree
      · exact h
  · exact hcand r2 (vFirst_spec g s t r2 hv).2.2.2 hp
  · exact hcand r1 (hFirst_spec g s t r1 hh).2.2.2 hp
  · dsimp only at hp
    split at hp
    · exact hcand r1 (hFirst_spec g s t r1 hh).2.2.2 hp
    · exact hcand r2 (vFirst_spec g s t r2 hv).2.2.2 hp

/-- C3 witness: on the grid with both elbows blocked the A* fallback
still only emits free cells. -/
theorem c3_witness :
    gridC4.freeAt 0 0 = true ∧
    ((1 : Int), (1 : Int)) ∈ manhattanRouting gridC4 ((0 : Int), (0 : Int)) ((2 : Int), (0 : Int)) ∧
    gridC4.freeAt 1 1 = true :=
  ⟨by decide, by decide,
    c3_theorem gridC4 ((0 : Int), (0 : Int)) ((2 : Int), (0 : Int)) (by decide)
      ((1 : Int), (1 : Int)) (by decide)⟩

/-- C4, counterexample: on the 3×3 grid with an obstacle at `(1, 0)`,
both elbow candidates from `(0,0)` to `(2,0)` fail, yet
`manhattan_routing` does not return the empty path — it falls back to
`self.a_star` internally (line 174) and returns the diagonal detour. -/
theorem c4_counterexample :
    routeHorizontalFirst gridC4 ((0 : Int), (0 : Int)) ((2 : Int), (0 : Int)) = none ∧
    routeVerticalFirst gridC4 ((0 : Int), (0 : Int)) ((2 : Int), (0 : Int)) = none ∧
    manhattanRouting gridC4 ((0 : Int), (0 : Int)) ((2 : Int), (0 : Int)) ≠ [] := by
  refine ⟨by decide, by decide, ?_⟩
  decide

/-- C4 (amended): if neither elbow candidate validates,
`manhattan_routing` itself falls back to `a_star` and returns its result
(possibly empty) — the fallback is not performed by the caller alone;
`route_wire` additionally retries `a_star` at the caller level only when
the returned path is empty, exactly as `find_best_path` does.  If both
candidates validate the one with fewer waypoints is returned (ties to
horizontal-first); if exactly one validates, that one is returned. -/
theorem c4_theorem :
    ∀ (g : Grid) (s t : Pt),
      (routeHorizontalFirst g s t = none → routeVerticalFirst g s t = none →
        manhattanRouting g s t = aStar g s t) ∧
      (∀ r1 r2, routeHorizontalFirst g s t = some r1 →
        routeVerticalFirst g s t = some r2 →
        manhattanRouting g s t = if r1.length ≤ r2.length then r1 else r2) ∧
      (∀ r1, routeHorizontalFirst g s t = some r1 →
        routeVerticalFirst g s t = none → manhattanRouting g s t = r1) ∧
      (∀ r2, routeHorizontalFirst g s t = none →
        routeVerticalFirst g s t = some r2 → manhattanRouting g s t = r2) ∧
      routeWire (some g) s t "manhattan" = some (findBestPath g s t true) := by
  intro g s t
  refine ⟨?_, ?_, ?_, ?_, ?_⟩
  · intro h1 h2
    unfold manhattanRouting
    rw [h1, h2]
  · intro r1 r2 h1 h2
    unfold manhattanRouting
    rw [h1, h2]
  · intro r1 h1 h2
    unfold manhattanRouting
    rw [h1, h2]
  · intro r2 h1 h2
    unfold manhattanRouting
    rw [h1, h2]
  · rfl

/-- C4 witness: instantiation at the grid with both elbows blocked. -/
theorem c4_witness :
    manhattanRouting gridC4 ((0 : Int), (0 : Int)) ((2 : Int), (0 : Int)) =
      aStar gridC4 ((0 : Int), (0 : Int)) ((2 : Int), (0 : Int)) :=
  (c4_theorem gridC4 ((0 : Int), (0 : Int)) ((2 : Int), (0 : Int))).1
    (by decide) (by decide)

/-! ### The termination measure of the search loop -/

/-- Effect of a pointwise update on a sum over the domain (additive form,
valid with duplicates). -/
theorem sum_map_update (D : List Pt) (f : Pt → Nat) (n : Pt) (v : Nat) :
    (D.map (fun p => if p = n then v else f p)).sum + D.count n * f n =
      (D.map f).sum + D.count n * v := by
  induction D with
  | nil => simp
  | cons d t ih =>
    by_cases hd : d = n
    · subst hd
      rw [List.map_cons, List.map_cons, List.sum_cons, List.sum_cons,
        List.count_cons_self, if_pos rfl, Nat.succ_mul, Nat.succ_mul]
      omega
    · rw [List.map_cons, List.map_cons, List.sum_cons, List.sum_cons,
        List.count_cons_of_ne (fun hc => hd hc.symm), if_neg hd]
      omega

/-- A count is a sum of indicator values. -/
theorem countP_as_sum (D : List Pt) (q : Pt → Bool) :
    D.countP q = (D.map (fun p => if q p = true then 1 else 0)).sum := by
  induction D with
  | nil => simp
  | cons d t ih =>
    rw [List.countP_cons, List.map_cons, List.sum_cons, ih]
    omega

/-- Effect of a pointwise predicate update on a count over the domain. -/
theorem countP_update (D : List Pt) (q : Pt → Bool) (n : Pt) (b : Bool) :
    D.countP (fun p => if p = n then b else q p) +
      D.count n * (if q n = true then 1 else 0) =
    D.countP q + D.count n * (if b = true then 1 else 0) := by
  rw [countP_as_sum, countP_as_sum]
  have hcongr : D.map (fun p => if (if p = n then b else q p) = true then 1 else 0) =
      D.map (fun p => if p = n then (if b = true then 1 else 0)
        else (if q p = true then 1 else 0)) := by
    apply List.map_congr_left
    intro p _
    by_cases hp : p = n
    · rw [if_pos hp, if_pos hp]
    · rw [if_neg hp, if_neg hp]
  rw [hcongr]
  exact sum_map_update D (fun p => if q p = true then 1 else 0) n (if b = true then 1 else 0)


/-- Specialisation of `countP_update`: flipping a `true` position to `false`. -/
theorem countP_update_new (D : List Pt) (q : Pt → Bool) (n : Pt) (hq : q n = true) :
    D.countP (fun p => if p = n then false else q p) + D.count n = D.countP q := by
  have h := countP_update D q n false
  rw [hq] at h
  simpa using h

/-- Specialisation of `countP_update`: flipping a `false` position to `true`. -/
theorem countP_update_set (D : List Pt) (q : Pt → Bool) (n : Pt) (hq : q n = false) :
    D.countP (fun p => if p = n then true else q p) = D.countP q + D.count n := by
  have h := countP_update D q n true
  rw [hq] at h
  simpa using h

/-- Specialisation of `sum_map_update` to a position whose old value is zero. -/
theorem sum_update_new (D : List Pt) (f : Pt → Nat) (n : Pt) (v : Nat) (hf : f n = 0) :
    (D.map (fun p => if p = n then v else f p)).sum = (D.map f).sum + D.count n * v := by
  have h := sum_map_update D f n v
  rw [hf] at h
  omega

/-- One relaxation preserves the score bound and does not increase the
loop measure (the frontier push is paid for by the score change). -/
theorem relaxOne_meas (D : List Pt) (goal cur : Pt) (st : AState) (n : Pt)
    (hn : n ∈ D) (hvb : ValBound D st) :
    ValBound D (relaxOne goal cur st n) ∧
    measPhi D (relaxOne goal cur st n) ≤ measPhi D st := by
  have hcnt1 : 1 ≤ D.count n := List.count_pos_iff.mpr hn
  have hL1 : 1 ≤ D.length := le_trans hcnt1 (List.count_le_length n D)
  have hsdef : setCnt D st = D.countP (fun p => (st.gS p).isSome) := rfl
  have hudef : unsetCnt D st = D.countP (fun p => (st.gS p).isNone) := rfl
  have hgdef : sumG D st = (D.map (fun p => (st.gS p).getD 0)).sum := rfl
  have hTb : (st.gS cur).getD 0 + moveCostS cur n ≤ 7 * setCnt D st + 7 := by
    have hc7 := moveCostS_le_seven cur n
    rcases hgc : st.gS cur with _ | v
    · simp only [Option.getD_none]
      omega
    · have := hvb cur v hgc
      simp only [Option.getD_some]
      omega
  rcases relaxOne_cases goal cur st n with ⟨heq, -⟩ | ⟨hlt, heq⟩
  · rw [heq]
    exact ⟨hvb, le_refl _⟩
  · rw [heq]
    set T := (st.gS cur).getD 0 + moveCostS cur n with hT
    have hunset : unsetCnt D
          { heap := (T + heuristicS n goal, n) :: st.heap,
            gS := fun p => if p = n then some T else st.gS p,
            fS := fun p => if p = n then some (T + heuristicS n goal) else st.fS p,
            came := fun p => if p = n then some cur else st.came p } =
        D.countP (fun p => if p = n then false else (st.gS p).isNone) := by
      apply List.countP_congr
      intro p _
      by_cases hp : p = n <;> simp [unsetCnt, hp]
    have hset : setCnt D
          { heap := (T + heuristicS n goal, n) :: st.heap,
            gS := fun p => if p = n then some T else st.gS p,
            fS := fun p => if p = n then some (T + heuristicS n goal) else st.fS p,
            came := fun p => if p = n then some cur else st.came p } =
        D.countP (fun p => if p = n then true else (st.gS p).isSome) := by
      apply List.countP_congr
      intro p _
      by_cases hp : p = n <;> simp [setCnt, hp]
    have hsumr : sumG D
          { heap := (T + heuristicS n goal, n) :: st.heap,
            gS := fun p => if p = n then some T else st.gS p,
            fS := fun p => if p = n then some (T + heuristicS n goal) else st.fS p,
            came := fun p => if p = n then some cur else st.came p } =
        (D.map (fun p => if p = n then T else (st.gS p).getD 0)).sum := by
      unfold sumG
      congr 1
      apply List.map_congr_left
      intro p _
      by_cases hp : p = n <;> simp [hp]
    rcases hgn : st.gS n with _ | gn
    · -- a new key
      have hu : D.countP (fun p => if p = n then false else (st.gS p).isNone) + D.count n =
          D.countP (fun p => (st.gS p).isNone) :=
        countP_update_new D (fun p => (st.gS p).isNone) n (by simp [hgn])
      have hsp : D.countP (fun p => if p = n then true else (st.gS p).isSome) =
          D.countP (fun p => (st.gS p).isSome) + D.count n :=
        countP_update_set D (fun p => (st.gS p).isSome) n (by simp [hgn])
      have hsm : (D.map (fun p => if p = n then T else (st.gS p).getD 0)).sum =
          (D.map (fun p => (st.gS p).getD 0)).sum + D.count n * T :=
        sum_update_new D (fun p => (st.gS p).getD 0) n T (by simp [hgn])
      constructor
      · intro p v hv
        dsimp only at hv
        rw [hset]
        by_cases hp : p = n
        · rw [if_pos hp] at hv
          cases hv
          omega
        · rw [if_neg hp] at hv
          have := hvb p v hv
          omega
      · unfold measPhi
        rw [hunset, hsumr, hsm, hudef, hgdef]
        dsimp only
        simp only [List.length_cons]
        have hsetL : D.countP (fun p => if p = n then true else (st.gS p).isSome) ≤ D.length :=
          List.countP_le_length _
        have hT7L : T ≤ 7 * D.length := by omega
        have k1 : D.count n * T ≤ D.count n * (7 * D.length) :=
          Nat.mul_le_mul_left _ hT7L
        have k3 : 9 * (D.count n * (7 * D.length)) = 63 * (D.count n * D.length) := by
          ring
        have k4 : (63 * D.length + 1) * D.count n =
            63 * (D.count n * D.length) + D.count n := by
          ring
        have k5 : (63 * D.length + 1) *
              D.countP (fun p => if p = n then false else (st.gS p).isNone) +
              (63 * D.length + 1) * D.count n =
            (63 * D.length + 1) *
              D.countP (fun p => (st.gS p).isNone) := by
          rw [← Nat.mul_add, hu]
        omega
    · -- an improved key
      have hlt2 := hlt gn hgn
      have hfn : (st.gS n).getD 0 = gn := by rw [hgn]; rfl
      have hunset2 : D.countP (fun p => if p = n then false else (st.gS p).isNone) =
          D.countP (fun p => (st.gS p).isNone) := by
        apply List.countP_congr
        intro p _
        by_cases hp : p = n
        · subst hp
          simp [hgn]
        · simp [hp]
      have hset2 : D.countP (fun p => if p = n then true else (st.gS p).isSome) =
          D.countP (fun p => (st.gS p).isSome) := by
        apply List.countP_congr
        intro p _
        by_cases hp : p = n
        · subst hp
          simp [hgn]
        · simp [hp]
      have hsm : (D.map (fun p => if p = n then T else (st.gS p).getD 0)).sum +
            D.count n * gn =
          (D.map (fun p => (st.gS p).getD 0)).sum + D.count n * T := by
        have h := sum_map_update D (fun p => (st.gS p).getD 0) n T
        simpa [hfn] using h
      constructor
      · intro p v hv
        dsimp only at hv
        rw [hset, hset2]
        by_cases hp : p = n
        · rw [if_pos hp] at hv
          cases hv
          have := hvb n gn hgn
          omega
        · rw [if_neg hp] at hv
          have := hvb p v hv
          omega
      · unfold measPhi
        rw [hunset, hunset2, hsumr, hudef, hgdef]
        dsimp only
        simp only [List.length_cons]
        have k1 : D.count n * (T + 1) ≤ D.count n * gn :=
          Nat.mul_le_mul_left _ (by omega)
        have k2 : D.count n * (T + 1) = D.count n * T + D.count n := by ring
        omega

/-- Adjacent free cells are neighbours in the search graph. -/
theorem mem_neighbors_intro {g : Grid} {p q : Pt} (ha : adjB p q = true)
    (hf : g.freeAt q.1 q.2 = true) : q ∈ neighbors g p := by
  unfold adjB at ha
  rw [decide_eq_true_eq] at ha
  unfold neighbors
  rw [List.mem_filterMap]
  refine ⟨(q.1 - p.1, q.2 - p.2), ha, ?_⟩
  have hq : ((p.1 + (q.1 - p.1), p.2 + (q.2 - p.2)) : Pt) = q := by
    rw [Prod.ext_iff]
    constructor <;> dsimp only <;> omega
  rw [hq, if_pos hf]

/-- The whole relaxation loop preserves the score bound and never
increases the loop measure. -/
theorem relaxAll_meas (g : Grid) (s goal cur : Pt) (st : AState)
    (hvb : ValBound (domainPts g s) st) :
    ValBound (domainPts g s) (relaxAll g goal cur st) ∧
    measPhi (domainPts g s) (relaxAll g goal cur st) ≤ measPhi (domainPts g s) st := by
  unfold relaxAll
  refine foldl_preserve
    (fun a => ValBound (domainPts g s) a ∧
      measPhi (domainPts g s) a ≤ measPhi (domainPts g s) st)
    (relaxOne goal cur) (neighbors g cur) ?_ st ⟨hvb, le_refl _⟩
  rintro a n hn ⟨hvba, hma⟩
  have hmem : n ∈ domainPts g s := free_mem_domainPts (neighbors_free hn)
  obtain ⟨h1, h2⟩ := relaxOne_meas (domainPts g s) goal cur a n hmem hvba
  exact ⟨h1, le_trans h2 hma⟩

/-- One relaxation keeps every point already on the frontier there. -/
theorem relaxOne_heapPts_mono (goal cur : Pt) (st : AState) (n q : Pt)
    (h : q ∈ heapPts st) : q ∈ heapPts (relaxOne goal cur st n) := by
  rcases relaxOne_cases goal cur st n with ⟨heq, -⟩ | ⟨-, heq⟩ <;> rw [heq]
  · exact h
  · unfold heapPts at h ⊢
    dsimp only
    rw [List.map_cons]
    exact List.mem_cons_of_mem _ h

/-- The relaxation loop keeps every point already on the frontier there. -/
theorem relaxAll_heapPts_mono (g : Grid) (goal cur : Pt) (st : AState) (q : Pt)
    (h : q ∈ heapPts st) : q ∈ heapPts (relaxAll g goal cur st) := by
  unfold relaxAll
  exact foldl_preserve (fun a => q ∈ heapPts a) _ _
    (fun a b _ ha => relaxOne_heapPts_mono goal cur a b q ha) st h

/-- If one relaxation assigns a score to a previously unscored point, it
pushes that point onto the frontier. -/
theorem relaxOne_pushed (goal cur : Pt) (st : AState) (n q : Pt)
    (h0 : (st.gS q).isNone) (h1 : ((relaxOne goal cur st n).gS q).isSome) :
    q ∈ heapPts (relaxOne goal cur st n) := by
  rcases relaxOne_cases goal cur st n with ⟨heq, -⟩ | ⟨-, heq⟩
  · rw [heq] at h1
    rw [Option.isNone_iff_eq_none] at h0
    rw [h0] at h1
    simp at h1
  · rw [heq] at h1 ⊢
    dsimp only at h1
    by_cases hq : q = n
    · subst hq
      unfold heapPts
      dsimp only
      rw [List.map_cons]
      exact List.mem_cons_self _ _
    · rw [if_neg hq] at h1
      rw [Option.isNone_iff_eq_none] at h0
      rw [h0] at h1
      simp at h1

/-- If the relaxation loop assigns a score to a previously unscored point,
that point ends up on the frontier. -/
theorem relaxAll_pushed (g : Grid) (goal cur : Pt) (st : AState) (q : Pt)
    (h0 : (st.gS q).isNone) (h1 : ((relaxAll g goal cur st).gS q).isSome) :
    q ∈ heapPts (relaxAll g goal cur st) := by
  unfold relaxAll at h1 ⊢
  revert st
  induction neighbors g cur with
  | nil =>
    intro st h0 h1
    rw [List.foldl_nil] at h1
    rw [Option.isNone_iff_eq_none] at h0
    rw [h0] at h1
    simp at h1
  | cons x t ih =>
    intro st h0 h1
    rw [List.foldl_cons] at h1 ⊢
    rcases hmid : ((relaxOne goal cur st x).gS q).isSome with _ | _
    · have h0' : ((relaxOne goal cur st x).gS q).isNone := by
        rcases hgq : (relaxOne goal cur st x).gS q with _ | v
        · rfl
        · rw [hgq] at hmid
          simp at hmid
      exact ih _ h0' h1
    · have hq : q ∈ heapPts (relaxOne goal cur st x) :=
        relaxOne_pushed goal cur st x q h0 hmid
      exact foldl_preserve (fun a => q ∈ heapPts a) _ _
        (fun a b _ ha => relaxOne_heapPts_mono goal cur a b q ha) _ hq

/-- A point other than the erased entry's stays on the frontier. -/
theorem mem_heapPts_erase (heap : List Entry) (e : Entry) (q : Pt)
    (hq : q ∈ heap.map (fun a => a.2)) (hne : q ≠ e.2) :
    q ∈ (heap.erase e).map (fun a => a.2) := by
  rw [List.mem_map] at hq ⊢
  obtain ⟨a, ha, hq2⟩ := hq
  refine ⟨a, ?_, hq2⟩
  rw [List.mem_erase_of_ne ?_]
  · exact ha
  · intro hc
    subst hc
    exact hne hq2.symm

/-- The head of a free chain is a free cell. -/
theorem freeChainB_head_free {g : Grid} {p : Pt} {r : List Pt}
    (h : freeChainB g (p :: r) = true) : g.freeAt p.1 p.2 = true := by
  cases r with
  | nil => exact h
  | cons q r2 =>
    unfold freeChainB at h
    rw [Bool.and_eq_true, Bool.and_eq_true] at h
    exact h.1.1

/-- With an empty frontier, the closure property propagates scores along
any free chain from a scored point to its end. -/
theorem chain_gS_some (g : Grid) (goal : Pt) (st : AState) (hC : CInv g goal st)
    (hheap : st.heap = []) :
    ∀ l : List Pt, freeChainB g l = true →
      ∀ s, l.head? = some s → (st.gS s).isSome →
      ∀ t, l.getLast? = some t → (st.gS t).isSome := by
  intro l
  induction l with
  | nil =>
    intro h
    simp [freeChainB] at h
  | cons p rest ih =>
    cases rest with
    | nil =>
      intro _ s hs hsome t ht
      simp only [List.head?_cons, Option.some.injEq] at hs
      simp only [List.getLast?_singleton, Option.some.injEq] at ht
      subst hs
      subst ht
      exact hsome
    | cons q rest2 =>
      intro h s hs hsome t ht
      simp only [List.head?_cons, Option.some.injEq] at hs
      subst hs
      unfold freeChainB at h
      rw [Bool.and_eq_true, Bool.and_eq_true] at h
      obtain ⟨⟨-, hadj⟩, hchain2⟩ := h
      have hqfree : g.freeAt q.1 q.2 = true := freeChainB_head_free hchain2
      have hqn : q ∈ neighbors g p := mem_neighbors_intro hadj hqfree
      have hnotheap : p ∉ heapPts st := by
        unfold heapPts
        rw [hheap]
        simp
      have hqsome : (st.gS q).isSome := hC.closure p hsome hnotheap q hqn
      have hlast2 : (q :: rest2).getLast? = some t := by
        rw [← ht]
        exact List.getLast?_cons_cons.symm
      exact ih hchain2 q rfl hqsome t hlast2

/-- While the goal is connected to a scored point by a free chain, the
frontier cannot be empty. -/
theorem heap_ne_of_chain (g : Grid) (goal s : Pt) (st : AState) (hC : CInv g goal st)
    (l : List Pt) (hchain : freeChainB g l = true) (hhead : l.head? = some s)
    (hlast : l.getLast? = some goal) (hs : (st.gS s).isSome) : st.heap ≠ [] := by
  intro hheap
  have hgoal := chain_gS_some g goal st hC hheap l hchain s hhead hs goal hlast
  have hin := hC.goalHeap hgoal
  unfold heapPts at hin
  rw [hheap] at hin
  simp at hin

/-- Expanding a non-goal frontier minimum preserves the completeness
invariant. -/
theorem step_CInv (g : Grid) (goal : Pt) (st : AState) (e : Entry) (rest : List Entry)
    (hpop : popMin st.heap = some (e, rest)) (hne : e.2 ≠ goal)
    (hC : CInv g goal st) :
    CInv g goal (relaxAll g goal e.2 { st with heap := rest }) := by
  obtain ⟨hmem, -, hrest⟩ := popMin_some hpop
  constructor
  · intro hgoal1
    rcases hg0 : st.gS goal with _ | v
    · have h0 : (AState.gS { st with heap := rest } goal).isNone := by
        rw [show AState.gS { st with heap := rest } goal = st.gS goal from rfl, hg0]
        rfl
      exact relaxAll_pushed g goal e.2 _ goal h0 hgoal1
    · have hsome : (st.gS goal).isSome := by rw [hg0]; rfl
      have hhp := hC.goalHeap hsome
      have hgne : goal ≠ e.2 := fun hc => hne hc.symm
      have hin : goal ∈ heapPts { st with heap := rest } := by
        unfold heapPts at hhp ⊢
        dsimp only
        rw [hrest]
        exact mem_heapPts_erase st.heap e goal hhp hgne
      exact relaxAll_heapPts_mono g goal e.2 _ goal hin
  · intro p hp1 hnp n hn
    by_cases hpc : p = e.2
    · subst hpc
      exact relaxAll_sets g goal e.2 _ n hn
    · rcases hg0 : st.gS p with _ | v
      · exfalso
        apply hnp
        have h0 : (AState.gS { st with heap := rest } p).isNone := by
          rw [show AState.gS { st with heap := rest } p = st.gS p from rfl, hg0]
          rfl
        exact relaxAll_pushed g goal e.2 _ p h0 hp1
      · have hsome : (st.gS p).isSome := by rw [hg0]; rfl
        by_cases hph : p ∈ heapPts st
        · exfalso
          apply hnp
          apply relaxAll_heapPts_mono
          unfold heapPts
          dsimp only
          rw [hrest]
          exact mem_heapPts_erase st.heap e p hph hpc
        · have hns := hC.closure p hsome hph n hn
          exact relaxAll_mono g goal e.2 _ n hns

/-- Expanding a frontier minimum preserves the score bound and strictly
decreases the loop measure. -/
theorem step_meas (g : Grid) (s goal : Pt) (st : AState) (e : Entry) (rest : List Entry)
    (hpop : popMin st.heap = some (e, rest))
    (hvb : ValBound (domainPts g s) st) :
    ValBound (domainPts g s) (relaxAll g goal e.2 { st with heap := rest }) ∧
    measPhi (domainPts g s) (relaxAll g goal e.2 { st with heap := rest }) <
      measPhi (domainPts g s) st := by
  obtain ⟨hmem, -, hrest⟩ := popMin_some hpop
  have hvb' : ValBound (domainPts g s) { st with heap := rest } := hvb
  obtain ⟨h1, h2⟩ := relaxAll_meas g s goal e.2 _ hvb'
  refine ⟨h1, lt_of_le_of_lt h2 ?_⟩
  have hlen : rest.length < st.heap.length := by
    rw [hrest]
    have h3 := List.length_erase_of_mem hmem
    have hpos : 0 < st.heap.length := List.length_pos.mpr (List.ne_nil_of_mem hmem)
    omega
  have e1 : measPhi (domainPts g s) { st with heap := rest } =
      (63 * (domainPts g s).length + 1) * unsetCnt (domainPts g s) st +
        9 * sumG (domainPts g s) st + rest.length := rfl
  have e2 : measPhi (domainPts g s) st =
      (63 * (domainPts g s).length + 1) * unsetCnt (domainPts g s) st +
        9 * sumG (domainPts g s) st + st.heap.length := rfl
  rw [e1, e2]
  omega

/-- With sufficient fuel, the `a_star` loop never reports failure while a
free chain connects a scored point to the goal. -/
theorem aStarLoop_complete (g : Grid) (s goal : Pt) (l : List Pt)
    (hchain : freeChainB g l = true) (hhead : l.head? = some s)
    (hlast : l.getLast? = some goal) :
    ∀ (fuel : Nat) (st : AState), measPhi (domainPts g s) st < fuel →
      ValBound (domainPts g s) st → CInv g goal st → (st.gS s).isSome →
      aStarLoop g s goal fuel st ≠ [] := by
  intro fuel
  induction fuel with
  | zero =>
    intro st hm
    omega
  | succ f ih =>
    intro st hm hvb hC hs
    have hne : st.heap ≠ [] := heap_ne_of_chain g goal s st hC l hchain hhead hlast hs
    rcases hpop : popMin st.heap with _ | ⟨e, rest⟩
    · exact absurd ((popMin_none_iff st.heap).mp hpop) hne
    · by_cases hcur : e.2 = goal
      · rw [aStarLoop, hpop]
        dsimp only
        rw [if_pos hcur]
        exact List.cons_ne_nil _ _
      · rw [aStarLoop, hpop]
        dsimp only
        rw [if_neg hcur]
        obtain ⟨hvb1, hdec⟩ := step_meas g s goal st e rest hpop hvb
        refine ih _ (by omega) hvb1 (step_CInv g goal st e rest hpop hcur hC) ?_
        exact relaxAll_mono g goal e.2 _ s hs

/-- The initial `a_star` state satisfies the completeness invariant. -/
theorem CInv_init (g : Grid) (s t : Pt) : CInv g t (aStarInit s t) := by
  constructor
  · intro h
    by_cases hts : t = s
    · subst hts
      unfold heapPts aStarInit
      simp
    · exfalso
      have hnone : AState.gS (aStarInit s t) t = none := by
        unfold aStarInit
        dsimp only
        rw [if_neg hts]
      rw [hnone] at h
      simp at h
  · intro p hp hnp n hn
    exfalso
    apply hnp
    by_cases hps : p = s
    · subst hps
      unfold heapPts aStarInit
      simp
    · exfalso
      have hnone : AState.gS (aStarInit s t) p = none := by
        unfold aStarInit
        dsimp only
        rw [if_neg hps]
      rw [hnone] at hp
      simp at hp

/-- The initial `a_star` state satisfies the score bound. -/
theorem VB_init (g : Grid) (s t : Pt) : ValBound (domainPts g s) (aStarInit s t) := by
  intro p v hv
  unfold aStarInit at hv
  dsimp only at hv
  by_cases hps : p = s
  · rw [if_pos hps] at hv
    cases hv
    omega
  · rw [if_neg hps] at hv
    simp at hv

/-- The initial state has total score zero. -/
theorem sumG_init (g : Grid) (s t : Pt) :
    sumG (domainPts g s) (aStarInit s t) = 0 := by
  unfold sumG
  apply List.sum_eq_zero
  intro x hx
  rw [List.mem_map] at hx
  obtain ⟨p, -, rfl⟩ := hx
  show ((aStarInit s t).gS p).getD 0 = 0
  unfold aStarInit
  dsimp only
  by_cases hps : p = s
  · rw [if_pos hps]
    rfl
  · rw [if_neg hps]
    rfl

/-- The chosen fuel exceeds the initial loop measure. -/
theorem measPhi_init_lt (g : Grid) (s t : Pt) :
    measPhi (domainPts g s) (aStarInit s t) < aStarFuel g s := by
  unfold measPhi aStarFuel
  rw [sumG_init]
  have h1 : unsetCnt (domainPts g s) (aStarInit s t) ≤ (domainPts g s).length :=
    List.countP_le_length _
  have h2 : (63 * (domainPts g s).length + 1) * unsetCnt (domainPts g s) (aStarInit s t) ≤
      (63 * (domainPts g s).length + 1) * (domainPts g s).length :=
    Nat.mul_le_mul_left _ h1
  have h3 : (aStarInit s t).heap.length = 1 := rfl
  rw [h3]
  omega

/-- Completeness of `a_star`: a free 8-connected chain from `s` to `t`
guarantees a non-empty result. -/
theorem aStar_complete (g : Grid) (s t : Pt) (h : ReachableG g s t) :
    aStar g s t ≠ [] := by
  obtain ⟨l, hchain, hhead, hlast⟩ := h
  unfold aStar
  apply aStarLoop_complete g s t l hchain hhead hlast
  · exact measPhi_init_lt g s t
  · exact VB_init g s t
  · exact CInv_init g s t
  · show (AState.gS (aStarInit s t) s).isSome
    unfold aStarInit
    dsimp only
    rw [if_pos rfl]
    rfl

/-- `a_star` on a reachable pair: non-empty, starts at `s`, ends at `t`. -/
theorem aStar_complete_spec (g : Grid) (s t : Pt) (h : ReachableG g s t) :
    aStar g s t ≠ [] ∧ (aStar g s t).head? = some s ∧
    (aStar g s t).getLast? = some t := by
  have hne := aStar_complete g s t h
  rcases aStar_sound g s t with h0 | ⟨h1, h2, -⟩
  · exact absurd h0 hne
  · exact ⟨hne, h1, h2⟩

/-- `manhattan_routing` on a reachable pair: non-empty, starts at `s`,
ends at `t` (either a validated elbow or the internal `a_star` fallback). -/
theorem manhattan_spec (g : Grid) (s t : Pt) (h : ReachableG g s t) :
    manhattanRouting g s t ≠ [] ∧ (manhattanRouting g s t).head? = some s ∧
    (manhattanRouting g s t).getLast? = some t := by
  rcases h1 : routeHorizontalFirst g s t with _ | r1 <;>
    rcases h2 : routeVerticalFirst g s t with _ | r2 <;>
    unfold manhattanRouting <;> simp only [h1, h2]
  · exact aStar_complete_spec g s t h
  · obtain ⟨hne, hh, hl, -⟩ := vFirst_spec g s t r2 h2
    exact ⟨hne, hh, hl⟩
  · obtain ⟨hne, hh, hl, -⟩ := hFirst_spec g s t r1 h1
    exact ⟨hne, hh, hl⟩
  · obtain ⟨hne1, hh1, hl1, -⟩ := hFirst_spec g s t r1 h1
    obtain ⟨hne2, hh2, hl2, -⟩ := vFirst_spec g s t r2 h2
    split
    · exact ⟨hne1, hh1, hl1⟩
    · exact ⟨hne2, hh2, hl2⟩

/-- C2: for every grid and every pair of in-bounds FREE cells with the goal
reachable from the start through FREE cells under 8-connected moves,
`find_best_path(start, goal, preferManhattan)` returns a non-empty path whose
first element is `start` and whose last element is `goal`, for either value of
`preferManhattan`; and it returns the empty path only when no such route
exists. -/
theorem c2_theorem (g : Grid) (s t : Pt) (pm : Bool)
    (hs : g.freeAt s.1 s.2 = true) (ht : g.freeAt t.1 t.2 = true) :
    (ReachableG g s t →
      findBestPath g s t pm ≠ [] ∧
      (findBestPath g s t pm).head? = some s ∧
      (findBestPath g s t pm).getLast? = some t) ∧
    (findBestPath g s t pm = [] → ¬ ReachableG g s t) := by
  have hfwd : ReachableG g s t →
      findBestPath g s t pm ≠ [] ∧
      (findBestPath g s t pm).head? = some s ∧
      (findBestPath g s t pm).getLast? = some t := by
    intro h
    have hmain : ∀ path : List Pt, path ≠ [] → path.head? = some s →
        path.getLast? = some t →
        (if path = [] then path else optimizePath g path) ≠ [] ∧
        (if path = [] then path else optimizePath g path).head? = some s ∧
        (if path = [] then path else optimizePath g path).getLast? = some t := by
      intro path hne hh hl
      rw [if_neg hne]
      exact ⟨optimizePath_ne_nil g path hne,
        (optimizePath_head? g path hne).trans hh,
        (optimizePath_getLast? g path hne).trans hl⟩
    cases pm
    · obtain ⟨hne, hh, hl⟩ := aStar_complete_spec g s t h
      exact hmain (aStar g s t) hne hh hl
    · obtain ⟨hne, hh, hl⟩ := manhattan_spec g s t h
      have hfb : findBestPath g s t true =
          if manhattanRouting g s t = [] then manhattanRouting g s t
          else optimizePath g (manhattanRouting g s t) := by
        unfold findBestPath
        dsimp only
        rw [if_neg hne]
        rfl
      rw [hfb, if_neg hne]
      exact ⟨optimizePath_ne_nil g _ hne, (optimizePath_head? g _ hne).trans hh,
        (optimizePath_getLast? g _ hne).trans hl⟩
  exact ⟨hfwd, fun he hr => (hfwd hr).1 he⟩

/-- Witness for C2 on the all-free 3×3 grid: `(0,0) → (2,2)` is reachable
along the diagonal, and `find_best_path` returns a non-empty path from
`(0,0)` to `(2,2)`. -/
theorem c2_witness :
    findBestPath gridFree (0, 0) (2, 2) true ≠ [] ∧
    (findBestPath gridFree (0, 0) (2, 2) true).head? = some (0, 0) ∧
    (findBestPath gridFree (0, 0) (2, 2) true).getLast? = some (2, 2) :=
  (c2_theorem gridFree (0, 0) (2, 2) true (by decide) (by decide)).1
    ⟨[(0, 0), (1, 1), (2, 2)], by decide, rfl, rfl⟩

/-- The abstract `a_star` loop relation is functional: tie-breaking among
frontier minima is resolved uniquely by the lexicographic entry order. -/
theorem AStarRunR_functional (g : Grid) (s t : Pt) :
    ∀ st o1, AStarRunR g s t st o1 → ∀ o2, AStarRunR g s t st o2 → o1 = o2 := by
  intro st o1 h1
  induction h1 with
  | empty st hheap =>
    intro o2 h2
    cases h2 with
    | empty => rfl
    | reachGoal st2 e2 he2 hmin2 hgoal2 =>
      rw [hheap] at he2
      simp at he2
    | step st2 e2 out2 he2 hmin2 hne2 hrec2 =>
      rw [hheap] at he2
      simp at he2
  | reachGoal st e he hmin hgoal =>
    intro o2 h2
    cases h2 with
    | empty st2 hheap =>
      rw [hheap] at he
      simp at he
    | reachGoal st2 e2 he2 hmin2 hgoal2 => rfl
    | step st2 e2 out2 he2 hmin2 hne2 hrec2 =>
      have heq : e = e2 := entryLt_antisymm (hmin2 e he) (hmin e2 he2)
      subst heq
      exact absurd hgoal hne2
  | step st e out he hmin hne hrec ih =>
    intro o2 h2
    cases h2 with
    | empty st2 hheap =>
      rw [hheap] at he
      simp at he
    | reachGoal st2 e2 he2 hmin2 hgoal2 =>
      have heq : e = e2 := entryLt_antisymm (hmin2 e he) (hmin e2 he2)
      subst heq
      exact absurd hgoal2 hne
    | step st2 e2 out2 he2 hmin2 hne2 hrec2 =>
      have heq : e = e2 := entryLt_antisymm (hmin2 e he) (hmin e2 he2)
      subst heq
      exact ih _ hrec2

/-- The fuelled loop implementation realises the abstract run relation. -/
theorem aStarLoop_run (g : Grid) (s goal : Pt) :
    ∀ (fuel : Nat) (st : AState), measPhi (domainPts g s) st < fuel →
      ValBound (domainPts g s) st →
      AStarRunR g s goal st (aStarLoop g s goal fuel st) := by
  intro fuel
  induction fuel with
  | zero =>
    intro st hm
    omega
  | succ f ih =>
    intro st hm hvb
    rcases hpop : popMin st.heap with _ | ⟨e, rest⟩
    · rw [aStarLoop, hpop]
      exact AStarRunR.empty st ((popMin_none_iff st.heap).mp hpop)
    · obtain ⟨hmem, hmin, hrest⟩ := popMin_some hpop
      by_cases hcur : e.2 = goal
      · rw [aStarLoop, hpop]
        dsimp only
        rw [if_pos hcur, hcur]
        exact AStarRunR.reachGoal st e hmem hmin hcur
      · rw [aStarLoop, hpop]
        dsimp only
        rw [if_neg hcur]
        refine AStarRunR.step st e _ hmem hmin hcur ?_
        rw [← hrest]
        obtain ⟨hvb1, hdec⟩ := step_meas g s goal st e rest hpop hvb
        exact ih _ (by omega) hvb1

/-- C10: `a_star` is deterministic. Any run of the loop (modelled by the
relation `AStarRunR`, which lets the frontier pop an arbitrary minimal entry
under the lexicographic `(f_score, (x, y))` order that `heapq` uses) from the
initial state produces one unique output, and the implementation's output
`aStar g s t` is such a run — so any two runs return identical paths. -/
theorem c10_theorem (g : Grid) (s t : Pt) :
    (∀ o1 o2 : List Pt, AStarRunR g s t (aStarInit s t) o1 →
      AStarRunR g s t (aStarInit s t) o2 → o1 = o2) ∧
    AStarRunR g s t (aStarInit s t) (aStar g s t) := by
  constructor
  · intro o1 o2 h1 h2
    exact AStarRunR_functional g s t (aStarInit s t) o1 h1 o2 h2
  · exact aStarLoop_run g s t (aStarFuel g s) (aStarInit s t)
      (measPhi_init_lt g s t) (VB_init g s t)

/-- Witness for C10: on the all-free 3×3 grid with `start = goal = (0,0)`,
a hand-built run of the relation (popping the single initial entry) must
agree with the implementation's output, pinning `a_star((0,0),(0,0)) = [(0,0)]`. -/
theorem c10_witness : aStar gridFree (0, 0) (0, 0) = [((0 : Int), (0 : Int))] :=
  (c10_theorem gridFree (0, 0) (0, 0)).1 _ _
    (c10_theorem gridFree (0, 0) (0, 0)).2
    (AStarRunR.reachGoal _ (0, ((0 : Int), (0 : Int))) (by decide) (by decide) rfl)
